import Mathlib

/-!
# png2gs8: PNG to 8-bit grayscale raw image converter

A shallow embedding of `png2gs8.c` (`convert_png` and `main`) and the
properties of its output container: a 4-byte big-endian header followed by
one luminance byte per pixel.

## Arithmetic model

`double` values are modelled exactly.  Every finite non-negative IEEE 754
binary64 number is an integer multiple of `2^-1074` (the smallest subnormal),
so a double is represented by the natural number `N` with value
`N * 2^-1074`.  Each operation is the exact rational result rounded to the
nearest representable value, ties to even (the default rounding mode), which
is what a C implementation with `FLT_EVAL_METHOD == 0` and no contraction of
`a*b + c` into a fused operation computes.
-/

namespace Png2gs8

/-! ## IEEE 754 binary64 arithmetic on non-negative values -/

/-- Number of fraction units per 1.0: a double `N` has value `N / 2^1074`. -/
def dblOne : Nat := 2 ^ 1074

/-- Round the rational `n / d` to the nearest integer, ties to the even one. -/
def roundNE (n d : Nat) : Nat :=
  let q := n / d
  let r := n % d
  if 2 * r < d then q
  else if d < 2 * r then q + 1
  else if q % 2 = 0 then q else q + 1

/-- Binary search, over the `i` low bits of the result, for the largest `k`
with `2^(52+k) ≤ q`; `k` is the part already found. -/
def binadeAux : Nat → Nat → Nat → Nat
  | 0, _, k => k
  | i + 1, q, k =>
    if 2 ^ (52 + k + 2 ^ i) ≤ q then binadeAux i q (k + 2 ^ i) else binadeAux i q k

/-- Exponent of the spacing of the doubles around `q` units: `0` below `2^53`
(subnormals and the first normal binade, where every integer number of units
is representable) and `k` when `2^(52+k) ≤ q < 2^(53+k)`.  The search runs
over 11 bits, the width of the binary64 exponent field, so it is exact for
every `q` in the finite range. -/
def binade (q : Nat) : Nat := binadeAux 11 q 0

/-- Round the rational `n / d` (in units of `2^-1074`) to the nearest binary64
value (in the same units), ties to even: a value in the binade of spacing
`2^k` is rounded to the nearest multiple of `2^k`.  Overflow to infinity is
outside the range used here: the code only forms values below `2^10`. -/
def fl (n d : Nat) : Nat :=
  let k := binade (n / d)
  2 ^ k * roundNE n (d * 2 ^ k)

/-- Conversion of an `unsigned int` to `double` (exact below `2^53`). -/
def ofUInt (r : Nat) : Nat := fl (r * dblOne) 1

/-- The decimal literal `num / 10^3` as a `double` constant. -/
def lit3 (num : Nat) : Nat := fl (num * dblOne) 1000

/-- Product of two doubles. -/
def dmul (a b : Nat) : Nat := fl (a * b) dblOne

/-- Sum of two doubles. -/
def dadd (a b : Nat) : Nat := fl (a + b) 1

/-- Conversion `(int)x` of a non-negative double: discard the fraction. -/
def toInt (a : Nat) : Nat := a / dblOne

/-- Line 149: `double lum = 0.299*r + 0.587*g + 0.114*b;`
with `r`, `g`, `b` of type `unsigned int`, evaluated left to right. -/
def lum (r g b : Nat) : Nat :=
  dadd (dadd (dmul (lit3 299) (ofUInt r)) (dmul (lit3 587) (ofUInt g)))
    (dmul (lit3 114) (ofUInt b))

/-- Line 150: `buf[0] = (int)lum;` the truncated value stored in an
`unsigned char`. -/
def lum_byte (r g b : Nat) : Nat := toInt (lum r g b) % 256

/-! ## libpng interface (`png.h`) -/

/-- Colour type code of `png.h` for grayscale images (PNG colour type 0). -/
def PNG_COLOR_TYPE_GRAY : Int := 0

/-- Colour type code of `png.h` for RGB images (PNG colour type 2). -/
def PNG_COLOR_TYPE_RGB : Int := 2

/-- Colour type code of `png.h` for indexed-palette images (PNG colour type 3). -/
def PNG_COLOR_TYPE_PALETTE : Int := 3

/-- Colour type code of `png.h` for grayscale with alpha (PNG colour type 4). -/
def PNG_COLOR_TYPE_GRAY_ALPHA : Int := 4

/-- Colour type code of `png.h` for RGB with alpha (PNG colour type 6). -/
def PNG_COLOR_TYPE_RGB_ALPHA : Int := 6

/-- Line 37: `#define PNG_BYTES_TO_CHECK 8`. -/
def PNG_BYTES_TO_CHECK : Nat := 8

/-- The eight bytes every PNG stream starts with. -/
def png_signature : List Nat := [137, 80, 78, 71, 13, 10, 26, 10]

/-- The call `png_sig_cmp(buf, 0, PNG_BYTES_TO_CHECK)`: non-zero (`true`)
when `buf` differs from the PNG signature. -/
def png_sig_cmp (buf : List Nat) : Bool := buf != png_signature

/-- What libpng hands to the program after `png_read_png`: the values of
`png_get_image_width`, `png_get_image_height`, `png_get_color_type` and
`png_get_rows` (one list of samples per scanline; the samples are
`unsigned char` values, at most 255, see `samples_ok`). -/
structure Image where
  width : Nat
  height : Nat
  color_type : Int
  rows : List (List Nat)

/-! ## The output file -/

/-- How a run of the program ends: `convert_png` returns to its caller, the
process leaves through `exit(status)` (or `main` returns `status`), or the
behaviour is undefined (a read outside a row, or a use of `r`, `g`, `b`
before they are assigned). -/
inductive Outcome where
  | returned
  | exited (status : Nat)
  | undefined
  deriving DecidableEq, Repr

/-- The output stream `ofp`: the bytes it holds and how many more calls of
`fwrite` it accepts (`none`: all of them). -/
structure Sink where
  budget : Option Nat
  data : List Nat
  deriving DecidableEq, Repr

/-- One call `fwrite(buf, size, 1, ofp)`: the flag says whether it returned 1. -/
def fwrite (ofp : Sink) (buf : List Nat) : Bool × Sink :=
  match ofp.budget with
  | none => (true, { ofp with data := ofp.data ++ buf })
  | some 0 => (false, ofp)
  | some (k + 1) => (true, { budget := some k, data := ofp.data ++ buf })

/-! ## `convert_png` -/

/-- Lines 136-148: the samples of the pixel at cursor `src` of the row and the
advanced cursor.  `none` when a sample is read outside the row, or when
neither branch runs and `r`, `g`, `b` stay unassigned. -/
def read_pixel (color_type : Int) (row : List Nat) (src : Nat) :
    Option (Nat × Nat × Nat × Nat) :=
  if color_type = PNG_COLOR_TYPE_RGB_ALPHA ∨ color_type = PNG_COLOR_TYPE_RGB then
    match row[src]?, row[src + 1]?, row[src + 2]? with
    | some r, some g, some b =>
      some (r, g, b, src + (if color_type = PNG_COLOR_TYPE_RGB_ALPHA then 4 else 3))
    | _, _, _ => none
  else if color_type = PNG_COLOR_TYPE_GRAY_ALPHA ∨ color_type = PNG_COLOR_TYPE_GRAY then
    match row[src]? with
    | some v => some (v, v, v, src + (if color_type = PNG_COLOR_TYPE_GRAY_ALPHA then 2 else 1))
    | none => none
  else none

/-- Lines 135-155: the loop `for (i = 0; i < width; i++)` with `n` iterations
left and the cursor at `src`.  The first component is `none` when the loop
runs to its end. -/
def pixel_loop (color_type : Int) (row : List Nat) :
    Nat → Nat → Sink → Option Outcome × Sink
  | 0, _, ofp => (none, ofp)
  | n + 1, src, ofp =>
    match read_pixel color_type row src with
    | none => (some Outcome.undefined, ofp)
    | some (r, g, b, src1) =>
      match fwrite ofp [lum_byte r g b] with
      | (false, ofp1) => (some (Outcome.exited 1), ofp1)
      | (true, ofp1) => pixel_loop color_type row n src1 ofp1

/-- Lines 131-156: the loop `for (j = 0; j < height; j++)` with `n` iterations
left, at row `j`. -/
def row_loop (img : Image) : Nat → Nat → Sink → Option Outcome × Sink
  | 0, _, ofp => (none, ofp)
  | n + 1, j, ofp =>
    match img.rows[j]? with
    | none => (some Outcome.undefined, ofp)
    | some src =>
      match pixel_loop img.color_type src img.width 0 ofp with
      | (some o, ofp1) => (some o, ofp1)
      | (none, ofp1) => row_loop img n (j + 1) ofp1

/-- Lines 99-103: the header bytes `hdr[0..3]`, each stored in an
`unsigned char`. -/
def header (width height : Nat) : List Nat :=
  [(width >>> 8) % 256, width &&& 0xff, (height >>> 8) % 256, height &&& 0xff]

/-- Lines 98-156 of `convert_png`: what the function does with the decoded
image (the spec's `encode`). -/
def encode (img : Image) (ofp : Sink) : Outcome × Sink :=
  match fwrite ofp (header img.width img.height) with
  | (false, ofp1) => (Outcome.exited 1, ofp1)
  | (true, ofp1) =>
    if img.color_type ≠ PNG_COLOR_TYPE_RGB ∧
        img.color_type ≠ PNG_COLOR_TYPE_RGB_ALPHA ∧
        img.color_type ≠ PNG_COLOR_TYPE_GRAY ∧
        img.color_type ≠ PNG_COLOR_TYPE_GRAY_ALPHA then
      (Outcome.exited 1, ofp1)
    else
      match row_loop img img.height 0 ofp1 with
      | (some o, ofp2) => (o, ofp2)
      | (none, ofp2) => (Outcome.returned, ofp2)

/-- The surroundings of one run: the content of the input file (`none` when
`fopen` fails), whether the output file can be opened, how many writes it
accepts, whether libpng can allocate its two structures, and what
`png_read_png` decodes from the stream (`none` when libpng reports an error
through `longjmp`). -/
structure Env where
  input : Option (List Nat)
  output_ok : Bool
  budget : Option Nat
  read_struct_ok : Bool
  info_struct_ok : Bool
  png_read_png : List Nat → Option Image

/-- Lines 38-162: `convert_png(iname, oname)`.  The output file is created
empty by `fopen(oname, "w")`. -/
def convert_png (env : Env) : Outcome × Sink :=
  match env.input with
  | none => (Outcome.exited 1, { budget := env.budget, data := [] })
  | some bytes =>
    let ofp : Sink := { budget := env.budget, data := [] }
    if !env.output_ok then (Outcome.exited 1, ofp)
    else
      let buf := bytes.take PNG_BYTES_TO_CHECK
      if buf.length ≠ PNG_BYTES_TO_CHECK ∨ png_sig_cmp buf = true then
        (Outcome.returned, ofp)
      else if !env.read_struct_ok then (Outcome.exited 1, ofp)
      else if !env.info_struct_ok then (Outcome.exited 1, ofp)
      else
        match env.png_read_png bytes with
        | none => (Outcome.exited 1, ofp)
        | some img => encode img ofp

/-- Lines 164-172: `main`; the first component is the exit status of the
process. -/
def main (argc : Nat) (env : Env) : Outcome × Sink :=
  if argc ≠ 3 then (Outcome.exited 1, { budget := env.budget, data := [] })
  else
    match convert_png env with
    | (Outcome.returned, ofp) => (Outcome.exited 0, ofp)
    | r => r

/-! ## Definitions used in the statements -/

/-- The finite range of the arithmetic model: values below `2^1026`, that is
`2^2100` units of `2^-1074`. -/
def finiteBound : Nat := 2 ^ 2100

/-- One weighted channel `c * x` of line 149, for the literal `num / 1000`. -/
def term (num x : Nat) : Nat := dmul (lit3 num) (ofUInt x)

/-- The sink with `pre` written before its content. -/
def prefixed (pre : List Nat) (s : Sink) : Sink := { s with data := pre ++ s.data }

/-- The layouts the converter accepts (lines 119-122). -/
def supported (color_type : Int) : Prop :=
  color_type = PNG_COLOR_TYPE_RGB ∨ color_type = PNG_COLOR_TYPE_RGB_ALPHA ∨
    color_type = PNG_COLOR_TYPE_GRAY ∨ color_type = PNG_COLOR_TYPE_GRAY_ALPHA

instance (color_type : Int) : Decidable (supported color_type) := by
  unfold supported
  infer_instance

/-- Samples per pixel of a supported layout: 3 for RGB, 4 for RGBA, 1 for
GRAY, 2 for GRAY_ALPHA. -/
def samples_per_pixel (color_type : Int) : Nat :=
  if color_type = PNG_COLOR_TYPE_RGB then 3
  else if color_type = PNG_COLOR_TYPE_RGB_ALPHA then 4
  else if color_type = PNG_COLOR_TYPE_GRAY_ALPHA then 2
  else 1

/-- The byte the pixel loop emits for the pixel at cursor `src` of a row. -/
def pixel_byte (color_type : Int) (row : List Nat) (src : Nat) : Nat :=
  match read_pixel color_type row src with
  | some (r, g, b, _) => lum_byte r g b
  | none => 0

/-- The payload the two loops emit: row after row, pixel after pixel. -/
def payload (img : Image) : List Nat :=
  (List.range img.height).flatMap fun j =>
    (List.range img.width).map fun i =>
      pixel_byte img.color_type (img.rows.getD j []) (i * samples_per_pixel img.color_type)

/-- Every scanline is present and holds `width * c` samples at least. -/
def rows_ok (img : Image) : Prop :=
  img.height ≤ img.rows.length ∧
    ∀ row ∈ img.rows, img.width * samples_per_pixel img.color_type ≤ row.length

/-- The spec's luminance of a pixel: `0.299*R + 0.587*G + 0.114*B` in
floating point, truncated toward zero. -/
def spec_luminance (R G B : Nat) : Nat := toInt (lum R G B)

/-- The spec's byte for pixel `i` of a row: the luminance of samples `i*c`,
`i*c+1`, `i*c+2` for RGB and RGBA, and of `R = G = B =` sample `i*c` for GRAY
and GRAY_ALPHA. -/
def spec_pixel (color_type : Int) (row : List Nat) (i : Nat) : Nat :=
  let c := samples_per_pixel color_type
  if color_type = PNG_COLOR_TYPE_RGB ∨ color_type = PNG_COLOR_TYPE_RGB_ALPHA then
    spec_luminance (row.getD (i * c) 0) (row.getD (i * c + 1) 0) (row.getD (i * c + 2) 0)
  else
    spec_luminance (row.getD (i * c) 0) (row.getD (i * c) 0) (row.getD (i * c) 0)

/-- The spec's output container: the big-endian 16-bit width and height, then
one byte per pixel, rows from the top, pixels from the left. -/
def spec_output (img : Image) : List Nat :=
  [img.width / 256, img.width % 256, img.height / 256, img.height % 256] ++
    (List.range img.height).flatMap fun j =>
      (List.range img.width).map fun i => spec_pixel img.color_type (img.rows.getD j []) i

/-- The samples are 8-bit values. -/
def samples_ok (img : Image) : Prop := ∀ row ∈ img.rows, ∀ v ∈ row, v ≤ 255

/-- The run reaches line 94 with the decoded image `img`: both files open,
the stream starts with the PNG signature, libpng allocates its structures and
decodes the stream to `img`. -/
def decodes (env : Env) (img : Image) : Prop :=
  ∃ bytes, env.input = some bytes ∧ env.output_ok = true ∧
    bytes.take PNG_BYTES_TO_CHECK = png_signature ∧
    env.read_struct_ok = true ∧ env.info_struct_ok = true ∧
    env.png_read_png bytes = some img

/-- Decoding of the first four bytes of an output as two big-endian unsigned
16-bit integers. -/
def header_dims (out : List Nat) : Option (Nat × Nat) :=
  match out with
  | w1 :: w0 :: h1 :: h0 :: _ => some (w1 * 256 + w0, h1 * 256 + h0)
  | _ => none

/-- The 2x1 RGB image with pixels (255,0,0), (0,0,0). -/
def img_2x1 : Image :=
  { width := 2, height := 1, color_type := PNG_COLOR_TYPE_RGB, rows := [[255, 0, 0, 0, 0, 0]] }

/-- The 1x2 RGB image with rows (0,0,0) and (255,255,255). -/
def img_1x2 : Image :=
  { width := 1, height := 2, color_type := PNG_COLOR_TYPE_RGB,
    rows := [[0, 0, 0], [255, 255, 255]] }

/-- The image of one RGB pixel. -/
def rgb_pixel (r g b : Nat) : Image :=
  { width := 1, height := 1, color_type := PNG_COLOR_TYPE_RGB, rows := [[r, g, b]] }

/-- A sink that accepts every write and holds nothing yet. -/
def empty_sink : Sink := { budget := none, data := [] }

/-- A run in which both files open, the input starts with the PNG signature
and libpng decodes it to `img`. -/
def env_of (img : Image) (budget : Option Nat) : Env :=
  { input := some png_signature, output_ok := true, budget := budget,
    read_struct_ok := true, info_struct_ok := true, png_read_png := fun _ => some img }

/-- A 2x2 image with an indexed palette. -/
def img_palette : Image :=
  { width := 2, height := 2, color_type := PNG_COLOR_TYPE_PALETTE, rows := [[0, 1], [1, 0]] }

/-- The image of one GRAY pixel. -/
def gray_pixel (v : Nat) : Image :=
  { width := 1, height := 1, color_type := PNG_COLOR_TYPE_GRAY, rows := [[v]] }

/-- The gray samples whose luminance sum falls just below the sample. -/
def gray_darkened : List Nat :=
  [1, 2, 4, 8, 11, 13, 16, 22, 26, 27, 32, 39, 44, 51, 52, 54, 57, 59, 61, 64, 78, 81, 88, 91,
    95, 101, 102, 104, 108, 114, 115, 118, 122, 127, 128, 143, 149, 156, 157, 162, 169, 175,
    176, 182, 183, 190, 195, 202, 203, 204, 208, 209, 216, 223, 225, 228, 230, 235, 236, 239,
    241, 244, 249, 251, 254]

/-- The samples of a scanline of RGB pixels. -/
def rgb_row (px : List (Nat × Nat × Nat)) : List Nat :=
  px.flatMap fun p => [p.1, p.2.1, p.2.2]

/-- The samples of a scanline of RGBA pixels, each a colour and an alpha. -/
def rgba_row (px : List ((Nat × Nat × Nat) × Nat)) : List Nat :=
  px.flatMap fun p => [p.1.1, p.1.2.1, p.1.2.2, p.2]

/-- The samples of a scanline of GRAY_ALPHA pixels, each a gray and an alpha. -/
def gray_alpha_row (px : List (Nat × Nat)) : List Nat :=
  px.flatMap fun p => [p.1, p.2]

/-- The RGB image with the given pixels. -/
def rgb_image (w h : Nat) (rows : List (List (Nat × Nat × Nat))) : Image :=
  { width := w, height := h, color_type := PNG_COLOR_TYPE_RGB, rows := rows.map rgb_row }

/-- The RGBA image with the given pixels. -/
def rgba_image (w h : Nat) (rows : List (List ((Nat × Nat × Nat) × Nat))) : Image :=
  { width := w, height := h, color_type := PNG_COLOR_TYPE_RGB_ALPHA, rows := rows.map rgba_row }

/-- The GRAY image with the given samples. -/
def gray_image (w h : Nat) (rows : List (List Nat)) : Image :=
  { width := w, height := h, color_type := PNG_COLOR_TYPE_GRAY, rows := rows }

/-- The GRAY_ALPHA image with the given pixels. -/
def gray_alpha_image (w h : Nat) (rows : List (List (Nat × Nat))) : Image :=
  { width := w, height := h, color_type := PNG_COLOR_TYPE_GRAY_ALPHA,
    rows := rows.map gray_alpha_row }

/-- A run on a file of five bytes, `hello`, that is not a PNG stream. -/
def env_hello : Env :=
  { input := some [0x68, 0x65, 0x6C, 0x6C, 0x6F], output_ok := true, budget := none,
    read_struct_ok := true, info_struct_ok := true, png_read_png := fun _ => none }

/-- A run on a file of eight bytes that differ from the PNG signature (a JPEG
start). -/
def env_jpeg : Env :=
  { input := some [0xFF, 0xD8, 0xFF, 0xE0, 0x00, 0x10, 0x4A, 0x46], output_ok := true,
    budget := none, read_struct_ok := true, info_struct_ok := true,
    png_read_png := fun _ => none }

/-- The bytes the row loop emits for `n` rows from row `j` on. -/
def payload_from (img : Image) (j n : Nat) : List Nat :=
  (List.range n).flatMap fun t =>
    (List.range img.width).map fun i =>
      pixel_byte img.color_type (img.rows.getD (j + t) []) (i * samples_per_pixel img.color_type)

/-- The calls of `fwrite` of a run that returns: the header in one call of
four bytes (line 104), then one call of one byte per pixel (line 151). -/
def writes (img : Image) : List (List Nat) :=
  header img.width img.height :: (payload img).map fun b => [b]

/-- The rows and pixels a run reaches when the sink accepts `k` writes only:
row `t` is reached when the `t * width` pixels before it are among the
`k - 1` pixel writes accepted, and on it the pixels up to the one whose write
is rejected are read. -/
def reached_ok (img : Image) (k : Nat) : Prop :=
  ∀ t, t < img.height → t * img.width < k →
    ∃ row, img.rows[t]? = some row ∧
      min img.width (k - t * img.width) * samples_per_pixel img.color_type ≤ row.length

/-- A 2x2 RGB image of which only the first row is present. -/
def img_cut : Image :=
  { width := 2, height := 2, color_type := PNG_COLOR_TYPE_RGB, rows := [[255, 0, 0, 0, 0, 0]] }

/-- A row of `n` samples 0. -/
def zero_row (n : Nat) : List Nat := List.replicate n 0

/-- A GRAY image of width 65536 and height 1, all samples 0. -/
def img_wide : Image :=
  { width := 65536, height := 1, color_type := PNG_COLOR_TYPE_GRAY, rows := [zero_row 65536] }

/-- Lines 139-141 and 146: the indices of the row that one iteration of the
pixel loop reads with the cursor at `src`: `src[0]`, `src[1]`, `src[2]` in the
first branch, `src[0]` in the second. -/
def read_indices (color_type : Int) (src : Nat) : List Nat :=
  if color_type = PNG_COLOR_TYPE_RGB_ALPHA ∨ color_type = PNG_COLOR_TYPE_RGB then
    [src, src + 1, src + 2]
  else if color_type = PNG_COLOR_TYPE_GRAY_ALPHA ∨ color_type = PNG_COLOR_TYPE_GRAY then
    [src]
  else []

/-- The image with every row cut to its first `width * c` samples. -/
def cut_rows (img : Image) : Image :=
  { width := img.width, height := img.height, color_type := img.color_type,
    rows := img.rows.map (List.take (img.width * samples_per_pixel img.color_type)) }

/-! ## Properties of the rounding -/

theorem roundNE_bounds (n D : Nat) : n / D ≤ roundNE n D ∧ roundNE n D ≤ n / D + 1 := by
  unfold roundNE
  simp only
  split_ifs <;> omega

theorem roundNE_mono {n m D : Nat} (h : n ≤ m) : roundNE n D ≤ roundNE m D := by
  have hq : n / D ≤ m / D := Nat.div_le_div_right h
  rcases Nat.lt_or_ge (n / D) (m / D) with hlt | hge
  · have h1 := (roundNE_bounds n D).2
    have h2 := (roundNE_bounds m D).1
    omega
  · have heq : n / D = m / D := by omega
    have e1 := Nat.div_add_mod n D
    have e2 := Nat.div_add_mod m D
    rw [heq] at e1
    have hr : n % D ≤ m % D := by omega
    unfold roundNE
    simp only [heq]
    split_ifs <;> omega

theorem roundNE_exact (m D : Nat) (hD : 0 < D) : roundNE (m * D) D = m := by
  unfold roundNE
  simp [Nat.mul_div_cancel _ hD, hD]

theorem binadeAux_spec (i : Nat) : ∀ (q k : Nat), q < 2 ^ (52 + k + 2 ^ i) →
    (k = 0 ∨ 2 ^ (52 + k) ≤ q) →
    q < 2 ^ (53 + binadeAux i q k) ∧
      (binadeAux i q k = 0 ∨ 2 ^ (52 + binadeAux i q k) ≤ q) := by
  induction i with
  | zero =>
    intro q k hu hl
    simp only [binadeAux]
    refine ⟨?_, hl⟩
    have : 52 + k + 2 ^ 0 = 53 + k := by norm_num; omega
    rwa [this] at hu
  | succ i ih =>
    intro q k hu hl
    simp only [binadeAux]
    split_ifs with hc
    · apply ih
      · have : 52 + (k + 2 ^ i) + 2 ^ i = 52 + k + 2 ^ (i + 1) := by rw [pow_succ]; omega
        rwa [this]
      · right
        have : 52 + (k + 2 ^ i) = 52 + k + 2 ^ i := by omega
        rwa [this]
    · exact ih q k (by omega) hl

theorem binade_spec (q : Nat) (hq : q < finiteBound) :
    q < 2 ^ (53 + binade q) ∧ (binade q = 0 ∨ 2 ^ (52 + binade q) ≤ q) := by
  have e : 52 + 0 + 2 ^ 11 = 2100 := by norm_num
  apply binadeAux_spec 11 q 0 _ (Or.inl rfl)
  rw [e]
  exact hq

theorem binade_mono {q p : Nat} (h : q ≤ p) (hp : p < finiteBound) : binade q ≤ binade p := by
  by_contra hlt
  push_neg at hlt
  have hq := binade_spec q (lt_of_le_of_lt h hp)
  have hp2 := binade_spec p hp
  rcases hq.2 with h0 | hl
  · omega
  · have : 2 ^ (53 + binade p) ≤ 2 ^ (52 + binade q) :=
      Nat.pow_le_pow_right (by norm_num) (by omega)
    omega

theorem fl_upper (n d : Nat) (hd : 0 < d) (hq : n / d < finiteBound) :
    roundNE n (d * 2 ^ binade (n / d)) ≤ 2 ^ 53 := by
  have hs := (binade_spec (n / d) hq).1
  have hD : 0 < d * 2 ^ binade (n / d) := Nat.mul_pos hd (Nat.pow_pos (by norm_num))
  have hn : n < 2 ^ (53 + binade (n / d)) * d := (Nat.div_lt_iff_lt_mul hd).1 hs
  have hn2 : n ≤ 2 ^ 53 * (d * 2 ^ binade (n / d)) := by
    rw [pow_add] at hn
    nlinarith [hn]
  calc roundNE n (d * 2 ^ binade (n / d))
      ≤ roundNE (2 ^ 53 * (d * 2 ^ binade (n / d))) (d * 2 ^ binade (n / d)) :=
        roundNE_mono hn2
    _ = 2 ^ 53 := roundNE_exact _ _ hD

theorem fl_lower (n d : Nat) (hd : 0 < d) (hk : 2 ^ (52 + binade (n / d)) ≤ n / d) :
    2 ^ 52 ≤ roundNE n (d * 2 ^ binade (n / d)) := by
  have hD : 0 < d * 2 ^ binade (n / d) := Nat.mul_pos hd (Nat.pow_pos (by norm_num))
  have hn : 2 ^ (52 + binade (n / d)) * d ≤ n := (Nat.le_div_iff_mul_le hd).1 hk
  have hn2 : 2 ^ 52 * (d * 2 ^ binade (n / d)) ≤ n := by
    rw [pow_add] at hn
    nlinarith [hn]
  calc 2 ^ 52 = roundNE (2 ^ 52 * (d * 2 ^ binade (n / d))) (d * 2 ^ binade (n / d)) :=
        (roundNE_exact _ _ hD).symm
    _ ≤ roundNE n (d * 2 ^ binade (n / d)) := roundNE_mono hn2

/-- Rounding to the nearest double is monotone (for a fixed denominator). -/
theorem fl_mono {n m d : Nat} (hd : 0 < d) (h : n ≤ m) (hm : m / d < finiteBound) :
    fl n d ≤ fl m d := by
  have hq : n / d ≤ m / d := Nat.div_le_div_right h
  have hk := binade_mono hq hm
  unfold fl
  simp only
  rcases Nat.lt_or_ge (binade (n / d)) (binade (m / d)) with hlt | hge
  · have hu := fl_upper n d hd (lt_of_le_of_lt hq hm)
    have hl : 2 ^ 52 ≤ roundNE m (d * 2 ^ binade (m / d)) := by
      apply fl_lower m d hd
      rcases (binade_spec (m / d) hm).2 with h0 | hl
      · omega
      · exact hl
    calc 2 ^ binade (n / d) * roundNE n (d * 2 ^ binade (n / d))
        ≤ 2 ^ binade (n / d) * 2 ^ 53 := Nat.mul_le_mul_left _ hu
      _ = 2 ^ (binade (n / d) + 1) * 2 ^ 52 := by rw [pow_succ]; ring
      _ ≤ 2 ^ binade (m / d) * 2 ^ 52 :=
        Nat.mul_le_mul_right _ (Nat.pow_le_pow_right (by norm_num) hlt)
      _ ≤ 2 ^ binade (m / d) * roundNE m (d * 2 ^ binade (m / d)) := Nat.mul_le_mul_left _ hl
  · have he : binade (n / d) = binade (m / d) := by omega
    rw [he]
    exact Nat.mul_le_mul_left _ (roundNE_mono h)

theorem fl_mono_bounded {n m d B : Nat} (hd : 0 < d) (h : n ≤ m) (hm : m ≤ B)
    (hB : B / d < finiteBound) : fl n d ≤ fl m d :=
  fl_mono hd h (lt_of_le_of_lt (Nat.div_le_div_right hm) hB)

theorem ofUInt_mono {r s : Nat} (h : r ≤ s) (hs : s ≤ 255) : ofUInt r ≤ ofUInt s := by
  unfold ofUInt
  exact fl_mono_bounded (B := 255 * dblOne) (by norm_num) (Nat.mul_le_mul_right _ h)
    (Nat.mul_le_mul_right _ hs) (by decide!)

theorem dblOne_pos : 0 < dblOne := by
  unfold dblOne
  positivity

theorem term_mono (num : Nat) (hnum : (lit3 num * ofUInt 255) / dblOne < finiteBound)
    {r s : Nat} (h : r ≤ s) (hs : s ≤ 255) : term num r ≤ term num s := by
  unfold term dmul
  exact fl_mono_bounded (B := lit3 num * ofUInt 255) dblOne_pos
    (Nat.mul_le_mul_left _ (ofUInt_mono h hs))
    (Nat.mul_le_mul_left _ (ofUInt_mono hs (le_refl _))) hnum

theorem lum_eq (r g b : Nat) :
    lum r g b = dadd (dadd (term 299 r) (term 587 g)) (term 114 b) := rfl

/-- The luminance is monotone in each channel. -/
theorem lum_mono {r g b r1 g1 b1 : Nat} (hr : r ≤ r1) (hg : g ≤ g1) (hb : b ≤ b1)
    (hr1 : r1 ≤ 255) (hg1 : g1 ≤ 255) (hb1 : b1 ≤ 255) :
    lum r g b ≤ lum r1 g1 b1 := by
  have tr := term_mono 299 (by decide!) hr hr1
  have tg := term_mono 587 (by decide!) hg hg1
  have tb := term_mono 114 (by decide!) hb hb1
  have tr1 := term_mono 299 (by decide!) hr1 (le_refl _)
  have tg1 := term_mono 587 (by decide!) hg1 (le_refl _)
  have tb1 := term_mono 114 (by decide!) hb1 (le_refl _)
  have s1 : dadd (term 299 r) (term 587 g) ≤ dadd (term 299 r1) (term 587 g1) := by
    unfold dadd
    exact fl_mono_bounded (B := term 299 255 + term 587 255) (by norm_num)
      (Nat.add_le_add tr tg) (Nat.add_le_add tr1 tg1) (by decide!)
  have s2 : dadd (term 299 r1) (term 587 g1) ≤ dadd (term 299 255) (term 587 255) := by
    unfold dadd
    exact fl_mono_bounded (B := term 299 255 + term 587 255) (by norm_num)
      (Nat.add_le_add tr1 tg1) (le_refl _) (by decide!)
  rw [lum_eq, lum_eq]
  unfold dadd at s1 s2 ⊢
  exact fl_mono_bounded (B := fl (term 299 255 + term 587 255) 1 + term 114 255) (by norm_num)
    (Nat.add_le_add s1 tb) (Nat.add_le_add s2 tb1) (by decide!)

/-- For 8-bit samples the truncated luminance is at most 255, so the store
into `buf[0]` does not wrap. -/
theorem lum_byte_eq {r g b : Nat} (hr : r ≤ 255) (hg : g ≤ 255) (hb : b ≤ 255) :
    lum_byte r g b = toInt (lum r g b) := by
  have h := lum_mono hr hg hb (le_refl 255) (le_refl 255) (le_refl 255)
  have h255 : toInt (lum 255 255 255) = 255 := by decide!
  have : toInt (lum r g b) ≤ toInt (lum 255 255 255) := Nat.div_le_div_right h
  unfold lum_byte
  exact Nat.mod_eq_of_lt (by omega)

/-! ## The writes only append -/

theorem fwrite_none (d buf : List Nat) :
    fwrite { budget := none, data := d } buf = (true, { budget := none, data := d ++ buf }) := rfl

theorem fwrite_prefixed (pre : List Nat) (s : Sink) (buf : List Nat) :
    fwrite (prefixed pre s) buf = ((fwrite s buf).1, prefixed pre (fwrite s buf).2) := by
  rcases s with ⟨b, d⟩
  rcases b with _ | _ | k <;> simp [fwrite, prefixed]

theorem pixel_loop_prefixed (pre : List Nat) (ct : Int) (row : List Nat) :
    ∀ (n src : Nat) (s : Sink),
      pixel_loop ct row n src (prefixed pre s) =
        ((pixel_loop ct row n src s).1, prefixed pre (pixel_loop ct row n src s).2) := by
  intro n
  induction n with
  | zero => intro src s; rfl
  | succ n ih =>
    intro src s
    simp only [pixel_loop]
    cases hrd : read_pixel ct row src with
    | none => rfl
    | some p =>
      obtain ⟨r, g, b, src1⟩ := p
      simp only [fwrite_prefixed]
      cases hw : fwrite s [lum_byte r g b] with
      | mk ok s1 =>
        cases ok with
        | false => rfl
        | true => simp only [ih]

theorem row_loop_prefixed (pre : List Nat) (img : Image) :
    ∀ (n j : Nat) (s : Sink),
      row_loop img n j (prefixed pre s) =
        ((row_loop img n j s).1, prefixed pre (row_loop img n j s).2) := by
  intro n
  induction n with
  | zero => intro j s; rfl
  | succ n ih =>
    intro j s
    simp only [row_loop]
    cases hr : img.rows[j]? with
    | none => rfl
    | some src =>
      simp only [pixel_loop_prefixed]
      cases hp : pixel_loop img.color_type src img.width 0 s with
      | mk o s1 =>
        cases o with
        | some o => rfl
        | none => simp only [ih]

/-- What is already in the sink does not influence the run: the same writes
are made after it. -/
theorem encode_prefixed (pre : List Nat) (img : Image) (s : Sink) :
    encode img (prefixed pre s) = ((encode img s).1, prefixed pre (encode img s).2) := by
  simp only [encode, fwrite_prefixed]
  cases hw : fwrite s (header img.width img.height) with
  | mk ok s1 =>
    cases ok with
    | false => rfl
    | true =>
      simp only
      split_ifs with hc
      · rfl
      · simp only [row_loop_prefixed]
        cases hr : row_loop img img.height 0 s1 with
        | mk o s2 => cases o <;> rfl

/-! ## A run on complete rows -/

theorem samples_per_pixel_pos (ct : Int) : 0 < samples_per_pixel ct := by
  unfold samples_per_pixel
  split_ifs <;> norm_num

theorem read_pixel_rgb {ct : Int} {row : List Nat} {src : Nat}
    (hs : ct = PNG_COLOR_TYPE_RGB ∨ ct = PNG_COLOR_TYPE_RGB_ALPHA) (hlen : src + 2 < row.length) :
    read_pixel ct row src =
      some (row.getD src 0, row.getD (src + 1) 0, row.getD (src + 2) 0,
        src + samples_per_pixel ct) := by
  rcases hs with h | h <;> subst h <;>
    simp [read_pixel, samples_per_pixel, PNG_COLOR_TYPE_RGB, PNG_COLOR_TYPE_RGB_ALPHA,
      List.getElem?_eq_getElem (show src < row.length by omega),
      List.getElem?_eq_getElem (show src + 1 < row.length by omega),
      List.getElem?_eq_getElem (show src + 2 < row.length by omega)]

theorem read_pixel_gray {ct : Int} {row : List Nat} {src : Nat}
    (hs : ct = PNG_COLOR_TYPE_GRAY ∨ ct = PNG_COLOR_TYPE_GRAY_ALPHA) (hlen : src < row.length) :
    read_pixel ct row src =
      some (row.getD src 0, row.getD src 0, row.getD src 0, src + samples_per_pixel ct) := by
  rcases hs with h | h <;> subst h <;>
    simp [read_pixel, samples_per_pixel, PNG_COLOR_TYPE_RGB, PNG_COLOR_TYPE_RGB_ALPHA,
      PNG_COLOR_TYPE_GRAY, PNG_COLOR_TYPE_GRAY_ALPHA,
      List.getElem?_eq_getElem (show src < row.length by omega)]

theorem samples_per_pixel_rgb {ct : Int}
    (hs : ct = PNG_COLOR_TYPE_RGB ∨ ct = PNG_COLOR_TYPE_RGB_ALPHA) : 3 ≤ samples_per_pixel ct := by
  rcases hs with h | h <;> subst h <;>
    simp [samples_per_pixel, PNG_COLOR_TYPE_RGB, PNG_COLOR_TYPE_RGB_ALPHA]

theorem read_pixel_cursor {ct : Int} {row : List Nat} {src : Nat} (hs : supported ct)
    (hlen : src + samples_per_pixel ct ≤ row.length) :
    ∃ r g b, read_pixel ct row src = some (r, g, b, src + samples_per_pixel ct) := by
  have hpos := samples_per_pixel_pos ct
  rcases hs with h | h | h | h
  · have h3 := samples_per_pixel_rgb (Or.inl h)
    exact ⟨_, _, _, read_pixel_rgb (Or.inl h) (by omega)⟩
  · have h3 := samples_per_pixel_rgb (Or.inr h)
    exact ⟨_, _, _, read_pixel_rgb (Or.inr h) (by omega)⟩
  · exact ⟨_, _, _, read_pixel_gray (Or.inl h) (by omega)⟩
  · exact ⟨_, _, _, read_pixel_gray (Or.inr h) (by omega)⟩

theorem pixel_loop_complete {ct : Int} (row : List Nat) (hs : supported ct) :
    ∀ (n src : Nat) (d : List Nat), src + n * samples_per_pixel ct ≤ row.length →
      pixel_loop ct row n src { budget := none, data := d } =
        (none, { budget := none,
                 data := d ++ (List.range n).map fun i =>
                   pixel_byte ct row (src + i * samples_per_pixel ct) }) := by
  intro n
  induction n with
  | zero => intro src d _; simp [pixel_loop]
  | succ n ih =>
    intro src d hlen
    have hc := samples_per_pixel_pos ct
    have hlen1 : src + samples_per_pixel ct + n * samples_per_pixel ct ≤ row.length := by
      rw [Nat.succ_mul] at hlen; omega
    obtain ⟨r, g, b, hrd⟩ := @read_pixel_cursor ct row src hs (by omega)
    have hb : pixel_byte ct row src = lum_byte r g b := by simp [pixel_byte, hrd]
    simp only [pixel_loop, hrd, fwrite_none, ih _ _ hlen1]
    rw [List.range_succ_eq_map]
    simp only [List.map_cons, List.map_map, Nat.zero_mul, Nat.add_zero, hb, List.append_assoc,
      List.singleton_append]
    congr
    funext i
    simp only [Function.comp, Nat.succ_eq_add_one, Nat.succ_mul]
    congr 1
    omega

theorem row_loop_complete (img : Image) (hs : supported img.color_type)
    (hrows : ∀ row ∈ img.rows, img.width * samples_per_pixel img.color_type ≤ row.length) :
    ∀ (n j : Nat) (d : List Nat), j + n ≤ img.rows.length →
      row_loop img n j { budget := none, data := d } =
        (none, { budget := none,
                 data := d ++ (List.range n).flatMap fun t =>
                   (List.range img.width).map fun i =>
                     pixel_byte img.color_type (img.rows.getD (j + t) [])
                       (i * samples_per_pixel img.color_type) }) := by
  intro n
  induction n with
  | zero => intro j d _; simp [row_loop]
  | succ n ih =>
    intro j d hj
    have hjl : j < img.rows.length := by omega
    have hmem : img.rows[j] ∈ img.rows := List.getElem_mem hjl
    have hp := pixel_loop_complete img.rows[j] hs img.width 0 d (by simpa using hrows _ hmem)
    simp only [row_loop, List.getElem?_eq_getElem hjl, hp, ih (j + 1) _ (by omega)]
    rw [List.range_succ_eq_map]
    simp only [List.flatMap_cons, List.flatMap_map, Nat.add_zero, Nat.zero_add, List.append_assoc,
      List.getD_eq_getElem?_getD, List.getElem?_eq_getElem hjl, Option.getD_some]
    congr
    funext t
    simp only [Function.comp, Nat.succ_eq_add_one]
    rw [show j + 1 + t = j + (t + 1) by omega]

/-- A run on complete rows with a sink that accepts every write returns, and
the sink holds the header followed by the payload. -/
theorem encode_complete (img : Image) (hs : supported img.color_type) (hr : rows_ok img)
    (d : List Nat) :
    encode img { budget := none, data := d } =
      (Outcome.returned,
        { budget := none, data := d ++ (header img.width img.height ++ payload img) }) := by
  have hsup : ¬(img.color_type ≠ PNG_COLOR_TYPE_RGB ∧
        img.color_type ≠ PNG_COLOR_TYPE_RGB_ALPHA ∧
        img.color_type ≠ PNG_COLOR_TYPE_GRAY ∧
        img.color_type ≠ PNG_COLOR_TYPE_GRAY_ALPHA) := by
    unfold supported at hs
    tauto
  have hl := row_loop_complete img hs hr.2 img.height 0 (d ++ header img.width img.height)
    (by simpa using hr.1)
  simp only [encode, fwrite_none, hsup, if_false, hl, payload, Nat.zero_add, List.append_assoc]

/-! ## From the emitted bytes to the container of the spec -/

theorem convert_png_decodes {env : Env} {img : Image} (h : decodes env img) :
    convert_png env = encode img { budget := env.budget, data := [] } := by
  obtain ⟨bytes, hi, ho, hsig, hr, hinfo, hd⟩ := h
  simp only [convert_png, hi, ho, hsig]
  simp [hr, hinfo, hd, png_sig_cmp, png_signature, PNG_BYTES_TO_CHECK]

theorem header_eq {w h : Nat} (hw : w ≤ 65535) (hh : h ≤ 65535) :
    header w h = [w / 256, w % 256, h / 256, h % 256] := by
  have e : (0xff : Nat) = 2 ^ 8 - 1 := by norm_num
  simp only [header, Nat.shiftRight_eq_div_pow, e, Nat.and_pow_two_sub_one_eq_mod]
  have h1 : w / 2 ^ 8 % 256 = w / 256 := by omega
  have h2 : h / 2 ^ 8 % 256 = h / 256 := by omega
  rw [h1, h2]

theorem getD_le_255 {row : List Nat} (h8 : ∀ v ∈ row, v ≤ 255) (k : Nat) : row.getD k 0 ≤ 255 := by
  rcases Nat.lt_or_ge k row.length with hk | hk
  · rw [List.getD_eq_getElem _ _ hk]
    exact h8 _ (List.getElem_mem hk)
  · simp [List.getElem?_eq_none hk]

theorem pixel_byte_spec {ct : Int} {row : List Nat} (hs : supported ct)
    (h8 : ∀ v ∈ row, v ≤ 255) (i : Nat)
    (hlen : i * samples_per_pixel ct + samples_per_pixel ct ≤ row.length) :
    pixel_byte ct row (i * samples_per_pixel ct) = spec_pixel ct row i := by
  have hpos := samples_per_pixel_pos ct
  by_cases hrgb : ct = PNG_COLOR_TYPE_RGB ∨ ct = PNG_COLOR_TYPE_RGB_ALPHA
  · have h3 := samples_per_pixel_rgb hrgb
    have hl : i * samples_per_pixel ct + 2 < row.length := by omega
    simp only [pixel_byte, read_pixel_rgb hrgb hl, spec_pixel, hrgb, if_true, spec_luminance]
    exact lum_byte_eq (getD_le_255 h8 _) (getD_le_255 h8 _) (getD_le_255 h8 _)
  · have hg : ct = PNG_COLOR_TYPE_GRAY ∨ ct = PNG_COLOR_TYPE_GRAY_ALPHA := by
      unfold supported at hs
      tauto
    have hl : i * samples_per_pixel ct < row.length := by omega
    simp only [pixel_byte, read_pixel_gray hg hl, spec_pixel, hrgb, if_false, spec_luminance]
    exact lum_byte_eq (getD_le_255 h8 _) (getD_le_255 h8 _) (getD_le_255 h8 _)

theorem grid_length {α : Type} (f : Nat → Nat → α) (w : Nat) :
    ∀ h : Nat, ((List.range h).flatMap fun j => (List.range w).map (f j)).length = h * w := by
  intro h
  induction h with
  | zero => simp
  | succ h ih =>
    rw [List.range_succ, List.flatMap_append, List.length_append, ih]
    simp [Nat.succ_mul]

theorem grid_getElem? {α : Type} (f : Nat → Nat → α) (w : Nat) :
    ∀ h j i : Nat, j < h → i < w →
      ((List.range h).flatMap fun j => (List.range w).map (f j))[j * w + i]? = some (f j i) := by
  intro h
  induction h with
  | zero => intro j i hj; omega
  | succ h ih =>
    intro j i hj hi
    rw [List.range_succ, List.flatMap_append]
    rcases Nat.lt_or_ge j h with hlt | hge
    · have hb : j * w + i < h * w := by
        have : (j + 1) * w ≤ h * w := Nat.mul_le_mul_right _ hlt
        rw [Nat.succ_mul] at this
        omega
      rw [List.getElem?_append_left (by rw [grid_length]; exact hb)]
      exact ih j i hlt hi
    · have hjh : j = h := by omega
      subst hjh
      rw [List.getElem?_append_right (by rw [grid_length]; omega), grid_length]
      simp [hi]

theorem decodes_env_of (img : Image) (budget : Option Nat) : decodes (env_of img budget) img :=
  ⟨png_signature, rfl, rfl, rfl, rfl, rfl, rfl⟩

theorem spec_output_eq (img : Image) (hs : supported img.color_type)
    (hw : img.width ≤ 65535) (hh : img.height ≤ 65535) (hr : rows_ok img) (h8 : samples_ok img) :
    header img.width img.height ++ payload img = spec_output img := by
  unfold spec_output payload
  rw [header_eq hw hh]
  congr 1
  apply List.flatMap_congr
  intro j hj
  apply List.map_congr_left
  intro i hi
  have hjl : j < img.rows.length := lt_of_lt_of_le (List.mem_range.1 hj) hr.1
  have hmem : img.rows.getD j [] ∈ img.rows := by
    rw [List.getD_eq_getElem _ _ hjl]
    exact List.getElem_mem hjl
  apply pixel_byte_spec hs (h8 _ hmem)
  have hlen := hr.2 _ hmem
  have hi2 : i + 1 ≤ img.width := List.mem_range.1 hi
  calc i * samples_per_pixel img.color_type + samples_per_pixel img.color_type
      = (i + 1) * samples_per_pixel img.color_type := by rw [Nat.succ_mul]
    _ ≤ img.width * samples_per_pixel img.color_type := Nat.mul_le_mul_right _ hi2
    _ ≤ (img.rows.getD j []).length := hlen

/-! ## Length of the output of a run that returns -/

theorem fwrite_length {s s1 : Sink} {buf : List Nat} (h : fwrite s buf = (true, s1)) :
    s1.data.length = s.data.length + buf.length := by
  rcases s with ⟨b, d⟩
  rcases b with _ | _ | k <;> simp [fwrite] at h <;> subst h <;> simp

theorem pixel_loop_length (ct : Int) (row : List Nat) :
    ∀ (n src : Nat) (s : Sink),
      (pixel_loop ct row n src s).1 ≠ some Outcome.returned ∧
      ((pixel_loop ct row n src s).1 = none →
        (pixel_loop ct row n src s).2.data.length = s.data.length + n) := by
  intro n
  induction n with
  | zero => intro src s; simp [pixel_loop]
  | succ n ih =>
    intro src s
    cases hrd : read_pixel ct row src with
    | none => simp [pixel_loop, hrd]
    | some p =>
      obtain ⟨r, g, b, src1⟩ := p
      cases hw : fwrite s [lum_byte r g b] with
      | mk ok s1 =>
        cases ok with
        | false => simp [pixel_loop, hrd, hw]
        | true =>
          have hl := fwrite_length hw
          have h := ih src1 s1
          simp only [pixel_loop, hrd, hw]
          refine ⟨h.1, fun hn => ?_⟩
          rw [h.2 hn, hl]
          simp only [List.length_singleton]
          omega

theorem row_loop_length (img : Image) :
    ∀ (n j : Nat) (s : Sink),
      (row_loop img n j s).1 ≠ some Outcome.returned ∧
      ((row_loop img n j s).1 = none →
        (row_loop img n j s).2.data.length = s.data.length + n * img.width) := by
  intro n
  induction n with
  | zero => intro j s; simp [row_loop]
  | succ n ih =>
    intro j s
    cases hr : img.rows[j]? with
    | none => simp [row_loop, hr]
    | some src =>
      have hp := pixel_loop_length img.color_type src img.width 0 s
      cases hpl : pixel_loop img.color_type src img.width 0 s with
      | mk o s1 =>
        rw [hpl] at hp
        cases o with
        | some o =>
          simp only [row_loop, hr, hpl]
          exact ⟨hp.1, fun hn => by simp at hn⟩
        | none =>
          have h := ih (j + 1) s1
          simp only [row_loop, hr, hpl]
          refine ⟨h.1, fun hn => ?_⟩
          rw [h.2 hn, hp.2 rfl, Nat.succ_mul]
          omega

theorem encode_returned_length (img : Image) (s : Sink)
    (h : (encode img s).1 = Outcome.returned) :
    (encode img s).2.data.length = s.data.length + 4 + img.width * img.height := by
  unfold encode at h ⊢
  cases hw : fwrite s (header img.width img.height) with
  | mk ok s1 =>
    rw [hw] at h
    cases ok with
    | false => simp at h
    | true =>
      have hl := fwrite_length hw
      simp only at h ⊢
      split_ifs at h ⊢ with hc
      have hr := row_loop_length img img.height 0 s1
      cases hrl : row_loop img img.height 0 s1 with
      | mk o s2 =>
        rw [hrl] at hr h
        cases o with
        | some o =>
          simp only at h
          exact absurd (by rw [h]) hr.1
        | none =>
          simp only
          rw [hr.2 rfl, hl, Nat.mul_comm]
          simp [header]

/-- When the sink accepts the first write, the output starts with the header. -/
theorem encode_data_header (img : Image) (b : Option Nat) (hb : b ≠ some 0) :
    ∃ rest, (encode img { budget := b, data := [] }).2.data =
      header img.width img.height ++ rest := by
  have hw : ∃ b1, fwrite { budget := b, data := [] } (header img.width img.height) =
      (true, prefixed (header img.width img.height) { budget := b1, data := [] }) := by
    rcases b with _ | _ | k
    · exact ⟨none, by simp [fwrite, prefixed]⟩
    · exact absurd rfl hb
    · exact ⟨some k, by simp [fwrite, prefixed]⟩
  obtain ⟨b1, hw⟩ := hw
  unfold encode
  rw [hw]
  simp only
  split_ifs with hc
  · exact ⟨[], by simp [prefixed]⟩
  · rw [row_loop_prefixed]
    cases hrl : row_loop img img.height 0 { budget := b1, data := [] } with
    | mk o s2 => cases o <;> exact ⟨s2.data, by simp [prefixed]⟩

/-! ## Runs on two images with the same pixels -/

theorem flatMap_block_getElem? {α : Type} (f : α → List Nat) (c : Nat)
    (hc : ∀ a, (f a).length = c) :
    ∀ (l : List α) (k t : Nat), t < c →
      (l.flatMap f)[c * k + t]? = (l[k]?).bind fun a => (f a)[t]? := by
  intro l
  induction l with
  | nil => intro k t _; simp
  | cons a l ih =>
    intro k t ht
    rw [List.flatMap_cons]
    cases k with
    | zero =>
      rw [List.getElem?_append_left (by rw [hc]; omega)]
      simp
    | succ k =>
      rw [List.getElem?_append_right (by rw [hc, Nat.mul_succ]; omega), hc]
      have e : c * (k + 1) + t - c = c * k + t := by rw [Nat.mul_succ]; omega
      rw [e, ih k t ht]
      simp

theorem read_rgb (px : List (Nat × Nat × Nat)) (k : Nat) :
    read_pixel PNG_COLOR_TYPE_RGB (rgb_row px) (3 * k) =
      (px[k]?).map fun p => (p.1, p.2.1, p.2.2, 3 * (k + 1)) := by
  have h0 := flatMap_block_getElem? (fun p : Nat × Nat × Nat => [p.1, p.2.1, p.2.2]) 3
    (fun _ => rfl) px k 0 (by norm_num)
  have h1 := flatMap_block_getElem? (fun p : Nat × Nat × Nat => [p.1, p.2.1, p.2.2]) 3
    (fun _ => rfl) px k 1 (by norm_num)
  have h2 := flatMap_block_getElem? (fun p : Nat × Nat × Nat => [p.1, p.2.1, p.2.2]) 3
    (fun _ => rfl) px k 2 (by norm_num)
  rw [Nat.add_zero] at h0
  simp only [read_pixel, rgb_row, h0, h1, h2]
  cases px[k]? <;>
    simp [PNG_COLOR_TYPE_RGB, PNG_COLOR_TYPE_RGB_ALPHA, Nat.mul_succ]

theorem read_rgba (px : List ((Nat × Nat × Nat) × Nat)) (k : Nat) :
    read_pixel PNG_COLOR_TYPE_RGB_ALPHA (rgba_row px) (4 * k) =
      (px[k]?).map fun p => (p.1.1, p.1.2.1, p.1.2.2, 4 * (k + 1)) := by
  have h0 := flatMap_block_getElem?
    (fun p : (Nat × Nat × Nat) × Nat => [p.1.1, p.1.2.1, p.1.2.2, p.2]) 4
    (fun _ => rfl) px k 0 (by norm_num)
  have h1 := flatMap_block_getElem?
    (fun p : (Nat × Nat × Nat) × Nat => [p.1.1, p.1.2.1, p.1.2.2, p.2]) 4
    (fun _ => rfl) px k 1 (by norm_num)
  have h2 := flatMap_block_getElem?
    (fun p : (Nat × Nat × Nat) × Nat => [p.1.1, p.1.2.1, p.1.2.2, p.2]) 4
    (fun _ => rfl) px k 2 (by norm_num)
  rw [Nat.add_zero] at h0
  simp only [read_pixel, rgba_row, h0, h1, h2]
  cases px[k]? <;>
    simp [PNG_COLOR_TYPE_RGB_ALPHA, Nat.mul_succ]

theorem read_gray_alpha (px : List (Nat × Nat)) (k : Nat) :
    read_pixel PNG_COLOR_TYPE_GRAY_ALPHA (gray_alpha_row px) (2 * k) =
      (px[k]?).map fun p => (p.1, p.1, p.1, 2 * (k + 1)) := by
  have h0 := flatMap_block_getElem? (fun p : Nat × Nat => [p.1, p.2]) 2
    (fun _ => rfl) px k 0 (by norm_num)
  rw [Nat.add_zero] at h0
  simp only [read_pixel, gray_alpha_row, h0]
  cases px[k]? <;>
    simp [PNG_COLOR_TYPE_GRAY_ALPHA, PNG_COLOR_TYPE_RGB_ALPHA, PNG_COLOR_TYPE_RGB, Nat.mul_succ]

theorem read_gray (row : List Nat) (k : Nat) :
    read_pixel PNG_COLOR_TYPE_GRAY row (1 * k) =
      (row[k]?).map fun v => (v, v, v, 1 * (k + 1)) := by
  simp only [read_pixel, Nat.one_mul]
  cases row[k]? <;>
    simp [PNG_COLOR_TYPE_GRAY, PNG_COLOR_TYPE_GRAY_ALPHA, PNG_COLOR_TYPE_RGB_ALPHA,
      PNG_COLOR_TYPE_RGB]

/-- Two rows whose pixels carry the same colours, at cursors that advance by
`c1` and `c2`, make the pixel loop do the same writes. -/
theorem pixel_loop_congr {ct1 ct2 : Int} {row1 row2 : List Nat} (c1 c2 : Nat)
    (hread : ∀ k, ∃ o : Option (Nat × Nat × Nat),
      read_pixel ct1 row1 (c1 * k) = o.map (fun p => (p.1, p.2.1, p.2.2, c1 * (k + 1))) ∧
      read_pixel ct2 row2 (c2 * k) = o.map (fun p => (p.1, p.2.1, p.2.2, c2 * (k + 1)))) :
    ∀ (n k : Nat) (s : Sink),
      pixel_loop ct1 row1 n (c1 * k) s = pixel_loop ct2 row2 n (c2 * k) s := by
  intro n
  induction n with
  | zero => intro k s; rfl
  | succ n ih =>
    intro k s
    obtain ⟨o, h1, h2⟩ := hread k
    simp only [pixel_loop, h1, h2]
    cases o with
    | none => rfl
    | some p =>
      simp only [Option.map_some']
      cases hw : fwrite s [lum_byte p.1 p.2.1 p.2.2] with
      | mk ok s1 =>
        cases ok with
        | false => rfl
        | true => exact ih (k + 1) s1

theorem row_loop_map_congr {α : Type} (rows : List α) (f1 f2 : α → List Nat)
    (w h1 h2 : Nat) (ct1 ct2 : Int)
    (hpx : ∀ a s, pixel_loop ct1 (f1 a) w 0 s = pixel_loop ct2 (f2 a) w 0 s) :
    ∀ (n j : Nat) (s : Sink),
      row_loop { width := w, height := h1, color_type := ct1, rows := rows.map f1 } n j s =
        row_loop { width := w, height := h2, color_type := ct2, rows := rows.map f2 } n j s := by
  intro n
  induction n with
  | zero => intro j s; rfl
  | succ n ih =>
    intro j s
    simp only [row_loop, List.getElem?_map]
    cases rows[j]? with
    | none => rfl
    | some a =>
      simp only [Option.map_some', hpx a s]
      cases pixel_loop ct2 (f2 a) w 0 s with
      | mk o s1 =>
        cases o with
        | some o => rfl
        | none => exact ih (j + 1) s1

theorem encode_map_congr {α : Type} (rows : List α) (f1 f2 : α → List Nat)
    (w h : Nat) {ct1 ct2 : Int} (hs1 : supported ct1) (hs2 : supported ct2)
    (hpx : ∀ a s, pixel_loop ct1 (f1 a) w 0 s = pixel_loop ct2 (f2 a) w 0 s) (s : Sink) :
    encode { width := w, height := h, color_type := ct1, rows := rows.map f1 } s =
      encode { width := w, height := h, color_type := ct2, rows := rows.map f2 } s := by
  have hn1 : ¬(ct1 ≠ PNG_COLOR_TYPE_RGB ∧ ct1 ≠ PNG_COLOR_TYPE_RGB_ALPHA ∧
      ct1 ≠ PNG_COLOR_TYPE_GRAY ∧ ct1 ≠ PNG_COLOR_TYPE_GRAY_ALPHA) := by
    unfold supported at hs1
    tauto
  have hn2 : ¬(ct2 ≠ PNG_COLOR_TYPE_RGB ∧ ct2 ≠ PNG_COLOR_TYPE_RGB_ALPHA ∧
      ct2 ≠ PNG_COLOR_TYPE_GRAY ∧ ct2 ≠ PNG_COLOR_TYPE_GRAY_ALPHA) := by
    unfold supported at hs2
    tauto
  simp only [encode, hn1, hn2, if_false, row_loop_map_congr rows f1 f2 w h h ct1 ct2 hpx]

/-- An RGBA image and the RGB image with the same colours give the same run. -/
theorem encode_rgba_rgb (w h : Nat) (rows : List (List ((Nat × Nat × Nat) × Nat))) (s : Sink) :
    encode (rgba_image w h rows) s = encode (rgb_image w h (rows.map (List.map Prod.fst))) s := by
  unfold rgba_image rgb_image
  rw [List.map_map]
  apply encode_map_congr rows rgba_row (rgb_row ∘ List.map Prod.fst) w h
    (Or.inr (Or.inl rfl)) (Or.inl rfl)
  intro px s
  have h := @pixel_loop_congr PNG_COLOR_TYPE_RGB_ALPHA PNG_COLOR_TYPE_RGB
    (rgba_row px) (rgb_row (px.map Prod.fst)) 4 3
    (fun k => ⟨(px[k]?).map Prod.fst, by
      rw [read_rgba, read_rgb, List.getElem?_map]
      cases px[k]? <;> simp⟩) w 0 s
  simpa using h

/-- A GRAY_ALPHA image and the GRAY image with the same grays give the same run. -/
theorem encode_gray_alpha_gray (w h : Nat) (rows : List (List (Nat × Nat))) (s : Sink) :
    encode (gray_alpha_image w h rows) s =
      encode (gray_image w h (rows.map (List.map Prod.fst))) s := by
  unfold gray_alpha_image gray_image
  apply encode_map_congr rows gray_alpha_row (List.map Prod.fst) w h
    (Or.inr (Or.inr (Or.inr rfl))) (Or.inr (Or.inr (Or.inl rfl)))
  intro px s
  have h := @pixel_loop_congr PNG_COLOR_TYPE_GRAY_ALPHA PNG_COLOR_TYPE_GRAY
    (gray_alpha_row px) (px.map Prod.fst) 2 1
    (fun k => ⟨(px[k]?).map (fun p => (p.1, p.1, p.1)), by
      rw [read_gray_alpha, read_gray, List.getElem?_map]
      cases px[k]? <;> simp⟩) w 0 s
  simpa using h

/-- A GRAY image and the RGB image whose pixels repeat the gray sample three
times give the same run. -/
theorem encode_gray_rgb (w h : Nat) (rows : List (List Nat)) (s : Sink) :
    encode (gray_image w h rows) s =
      encode (rgb_image w h (rows.map (List.map fun v => (v, v, v)))) s := by
  unfold gray_image rgb_image
  rw [List.map_map]
  have hc := encode_map_congr rows id (rgb_row ∘ List.map fun v => (v, v, v)) w h
    (Or.inr (Or.inr (Or.inl rfl))) (Or.inl rfl) (fun row s => by
      have h := @pixel_loop_congr PNG_COLOR_TYPE_GRAY PNG_COLOR_TYPE_RGB
        row (rgb_row (row.map fun v => (v, v, v))) 1 3
        (fun k => ⟨(row[k]?).map (fun v => (v, v, v)), by
          rw [read_gray, read_rgb, List.getElem?_map]
          cases row[k]? <;> simp⟩) w 0 s
      simpa using h) s
  simpa using hc

/-! ## Defined behaviour on complete rows -/

theorem pixel_loop_defined {ct : Int} (row : List Nat) (hs : supported ct) :
    ∀ (n src : Nat) (s : Sink), src + n * samples_per_pixel ct ≤ row.length →
      (pixel_loop ct row n src s).1 ≠ some Outcome.undefined := by
  intro n
  induction n with
  | zero => intro src s _; simp [pixel_loop]
  | succ n ih =>
    intro src s hlen
    have hc := samples_per_pixel_pos ct
    have hlen1 : src + samples_per_pixel ct + n * samples_per_pixel ct ≤ row.length := by
      rw [Nat.succ_mul] at hlen; omega
    obtain ⟨r, g, b, hrd⟩ := @read_pixel_cursor ct row src hs (by omega)
    cases hw : fwrite s [lum_byte r g b] with
    | mk ok s1 =>
      cases ok with
      | false => simp [pixel_loop, hrd, hw]
      | true =>
        simp only [pixel_loop, hrd, hw]
        exact ih _ s1 hlen1

theorem row_loop_defined (img : Image) (hs : supported img.color_type)
    (hrows : ∀ row ∈ img.rows, img.width * samples_per_pixel img.color_type ≤ row.length) :
    ∀ (n j : Nat) (s : Sink), j + n ≤ img.rows.length →
      (row_loop img n j s).1 ≠ some Outcome.undefined := by
  intro n
  induction n with
  | zero => intro j s _; simp [row_loop]
  | succ n ih =>
    intro j s hj
    have hjl : j < img.rows.length := by omega
    have hmem : img.rows[j] ∈ img.rows := List.getElem_mem hjl
    have hp := pixel_loop_defined img.rows[j] hs img.width 0 s (by simpa using hrows _ hmem)
    cases hpl : pixel_loop img.color_type img.rows[j] img.width 0 s with
    | mk o s1 =>
      rw [hpl] at hp
      cases o with
      | some o =>
        simp only [row_loop, List.getElem?_eq_getElem hjl, hpl]
        exact hp
      | none =>
        simp only [row_loop, List.getElem?_eq_getElem hjl, hpl]
        exact ih (j + 1) s1 (by omega)

/-- On complete rows no run reads outside a row or uses an unassigned
channel, whatever the layout and the sink. -/
theorem encode_defined (img : Image) (hr : rows_ok img) (s : Sink) :
    (encode img s).1 ≠ Outcome.undefined := by
  unfold encode
  cases hw : fwrite s (header img.width img.height) with
  | mk ok s1 =>
    cases ok with
    | false => simp
    | true =>
      simp only
      split_ifs with hc
      · simp
      · have hs : supported img.color_type := by
          unfold supported
          tauto
        have hd := row_loop_defined img hs hr.2 img.height 0 s1 (by simpa using hr.1)
        cases hrl : row_loop img img.height 0 s1 with
        | mk o s2 =>
          rw [hrl] at hd
          cases o with
          | some o =>
            simp only
            intro h
            exact hd (by rw [h])
          | none => simp

/-! ## The signature check -/

/-- With three arguments and both files open, every input that is shorter
than eight bytes or does not start with the PNG signature makes `convert_png`
return at line 62, so that `main` returns 0 with an empty output file. -/
theorem invalid_signature_returns (env : Env) (bytes : List Nat)
    (hi : env.input = some bytes) (ho : env.output_ok = true)
    (hsig : bytes.length < 8 ∨ bytes.take 8 ≠ png_signature) :
    main 3 env = (Outcome.exited 0, { budget := env.budget, data := [] }) := by
  have hc : (bytes.take PNG_BYTES_TO_CHECK).length ≠ PNG_BYTES_TO_CHECK ∨
      png_sig_cmp (bytes.take PNG_BYTES_TO_CHECK) = true := by
    rcases hsig with h | h
    · left
      simp only [PNG_BYTES_TO_CHECK, List.length_take]
      omega
    · right
      simpa [png_sig_cmp, PNG_BYTES_TO_CHECK] using h
  have hcv : convert_png env = (Outcome.returned, { budget := env.budget, data := [] }) := by
    simp only [convert_png, hi, ho]
    exact if_pos hc
  simp [main, hcv]

/-! ## Range of the luminance -/

theorem lum_gray_le : ∀ m, m < 256 → toInt (lum m m m) ≤ m := by
  decide!

/-- The truncated luminance never exceeds the largest channel. -/
theorem toInt_lum_le_max {r g b : Nat} (hr : r ≤ 255) (hg : g ≤ 255) (hb : b ≤ 255) :
    toInt (lum r g b) ≤ max r (max g b) := by
  have hm : max r (max g b) ≤ 255 := max_le hr (max_le hg hb)
  have h := lum_mono (le_max_left r (max g b))
    (le_trans (le_max_left g b) (le_max_right r (max g b)))
    (le_trans (le_max_right g b) (le_max_right r (max g b))) hm hm hm
  have h1 : toInt (lum r g b) ≤ toInt (lum (max r (max g b)) (max r (max g b)) (max r (max g b))) :=
    Nat.div_le_div_right h
  exact le_trans h1 (lum_gray_le _ (by omega))

theorem lum_byte_mono {r g b r1 g1 b1 : Nat} (hr : r ≤ r1) (hg : g ≤ g1) (hb : b ≤ b1)
    (hr1 : r1 ≤ 255) (hg1 : g1 ≤ 255) (hb1 : b1 ≤ 255) :
    lum_byte r g b ≤ lum_byte r1 g1 b1 := by
  rw [lum_byte_eq (le_trans hr hr1) (le_trans hg hg1) (le_trans hb hb1),
    lum_byte_eq hr1 hg1 hb1]
  exact Nat.div_le_div_right (lum_mono hr hg hb hr1 hg1 hb1)

theorem encode_rgb_pixel (r g b : Nat) :
    encode (rgb_pixel r g b) empty_sink =
      (Outcome.returned, { budget := none, data := [0, 1, 0, 1, lum_byte r g b] }) := by
  have hr : rows_ok (rgb_pixel r g b) := by
    unfold rows_ok
    simp [rgb_pixel, samples_per_pixel, PNG_COLOR_TYPE_RGB]
  have h := encode_complete (rgb_pixel r g b) (Or.inl rfl) hr []
  have hh : header 1 1 = [0, 1, 0, 1] := by decide
  have hp : payload (rgb_pixel r g b) = [lum_byte r g b] := by
    simp [payload, rgb_pixel, pixel_byte, read_pixel, PNG_COLOR_TYPE_RGB,
      PNG_COLOR_TYPE_RGB_ALPHA, List.range_succ]
  rw [hp] at h
  simpa [empty_sink, rgb_pixel, hh] using h

/-! ## A sink that rejects a write -/

theorem pixel_loop_budget {ct : Int} (row : List Nat) (hs : supported ct) :
    ∀ (n src m : Nat) (d : List Nat),
      src + min n (m + 1) * samples_per_pixel ct ≤ row.length →
      pixel_loop ct row n src { budget := some m, data := d } =
        if n ≤ m then
          (none, { budget := some (m - n),
                   data := d ++ (List.range n).map fun i =>
                     pixel_byte ct row (src + i * samples_per_pixel ct) })
        else
          (some (Outcome.exited 1),
            { budget := some 0,
              data := d ++ (List.range m).map fun i =>
                pixel_byte ct row (src + i * samples_per_pixel ct) }) := by
  intro n
  induction n with
  | zero => intro src m d _; simp [pixel_loop]
  | succ n ih =>
    intro src m d hlen
    have hc := samples_per_pixel_pos ct
    have hmin : 1 ≤ min (n + 1) (m + 1) := by omega
    have h1 : src + samples_per_pixel ct ≤ row.length := by
      have : 1 * samples_per_pixel ct ≤ min (n + 1) (m + 1) * samples_per_pixel ct :=
        Nat.mul_le_mul_right _ hmin
      omega
    obtain ⟨r, g, b, hrd⟩ := @read_pixel_cursor ct row src hs h1
    have hb : pixel_byte ct row src = lum_byte r g b := by simp [pixel_byte, hrd]
    cases m with
    | zero => simp [pixel_loop, hrd, fwrite]
    | succ m =>
      have hlen1 : src + samples_per_pixel ct + min n (m + 1) * samples_per_pixel ct ≤
          row.length := by
        have e : min (n + 1) (m + 1 + 1) = min n (m + 1) + 1 := by omega
        rw [e, Nat.succ_mul] at hlen
        omega
      have hstep : pixel_loop ct row (n + 1) src { budget := some (m + 1), data := d } =
          pixel_loop ct row n (src + samples_per_pixel ct)
            { budget := some m, data := d ++ [lum_byte r g b] } := by
        simp [pixel_loop, hrd, fwrite]
      rw [hstep, ih _ m _ hlen1]
      have hshift : ∀ k, (List.range (k + 1)).map (fun i =>
          pixel_byte ct row (src + i * samples_per_pixel ct)) =
          lum_byte r g b :: (List.range k).map (fun i =>
            pixel_byte ct row (src + samples_per_pixel ct + i * samples_per_pixel ct)) := by
        intro k
        rw [List.range_succ_eq_map]
        simp only [List.map_cons, List.map_map, Nat.zero_mul, Nat.add_zero, hb]
        congr 1
        apply List.map_congr_left
        intro i _
        simp only [Function.comp, Nat.succ_eq_add_one, Nat.succ_mul]
        congr 1
        omega
      by_cases hnm : n ≤ m
      · have hnm1 : n + 1 ≤ m + 1 := by omega
        rw [if_pos hnm, if_pos hnm1, hshift n]
        simp
      · have hnm1 : ¬ n + 1 ≤ m + 1 := by omega
        rw [if_neg hnm, if_neg hnm1, hshift m]
        simp

theorem payload_from_succ (img : Image) (j n : Nat) :
    payload_from img j (n + 1) =
      ((List.range img.width).map fun i =>
        pixel_byte img.color_type (img.rows.getD j [])
          (i * samples_per_pixel img.color_type)) ++ payload_from img (j + 1) n := by
  unfold payload_from
  rw [List.range_succ_eq_map]
  simp only [List.flatMap_cons, List.flatMap_map, Nat.add_zero]
  congr 1
  apply List.flatMap_congr
  intro t _
  simp only [Function.comp, Nat.succ_eq_add_one]
  rw [show j + (t + 1) = j + 1 + t by omega]

theorem payload_eq_from (img : Image) : payload img = payload_from img 0 img.height := by
  unfold payload payload_from
  simp only [Nat.zero_add]

theorem row_loop_budget (img : Image) (hs : supported img.color_type) :
    ∀ (n j m : Nat) (d : List Nat),
      (∀ t, t < n → t * img.width ≤ m →
        ∃ row, img.rows[j + t]? = some row ∧
          min img.width (m - t * img.width + 1) * samples_per_pixel img.color_type ≤
            row.length) →
      row_loop img n j { budget := some m, data := d } =
        if n * img.width ≤ m then
          (none, { budget := some (m - n * img.width), data := d ++ payload_from img j n })
        else
          (some (Outcome.exited 1),
            { budget := some 0, data := d ++ (payload_from img j n).take m }) := by
  intro n
  induction n with
  | zero => intro j m d _; simp [row_loop, payload_from]
  | succ n ih =>
    intro j m d H
    obtain ⟨row, hrow, hlen⟩ := H 0 (by omega) (by omega)
    simp only [Nat.add_zero, Nat.zero_mul, Nat.sub_zero] at hrow hlen
    have hgetD : img.rows.getD j [] = row := by
      simp [List.getD_eq_getElem?_getD, hrow]
    have hp := pixel_loop_budget row hs img.width 0 m d (by omega)
    simp only [Nat.zero_add] at hp
    obtain ⟨R, hRd⟩ : ∃ R : List Nat, R = (List.range img.width).map (fun i =>
        pixel_byte img.color_type row (i * samples_per_pixel img.color_type)) := ⟨_, rfl⟩
    have hR : R.length = img.width := by rw [hRd]; simp
    have hRm : m ≤ img.width → (List.range m).map (fun i =>
        pixel_byte img.color_type row (i * samples_per_pixel img.color_type)) = R.take m := by
      intro h
      rw [hRd, ← List.map_take, List.take_range, min_eq_left h]
    rw [payload_from_succ, hgetD, ← hRd]
    rw [← hRd] at hp
    have hs1 : (n + 1) * img.width = n * img.width + img.width := Nat.succ_mul n img.width
    by_cases hwm : img.width ≤ m
    · rw [if_pos hwm] at hp
      have hstep : row_loop img (n + 1) j { budget := some m, data := d } =
          row_loop img n (j + 1) { budget := some (m - img.width), data := d ++ R } := by
        simp only [row_loop, hrow, hp]
      have H1 : ∀ t, t < n → t * img.width ≤ m - img.width →
          ∃ row, img.rows[j + 1 + t]? = some row ∧
            min img.width (m - img.width - t * img.width + 1) *
              samples_per_pixel img.color_type ≤ row.length := by
        intro t ht htm
        have hs2 : (t + 1) * img.width = t * img.width + img.width := Nat.succ_mul t img.width
        obtain ⟨r1, hr1, hl1⟩ := H (t + 1) (by omega) (by omega)
        refine ⟨r1, ?_, ?_⟩
        · rw [show j + 1 + t = j + (t + 1) by omega]
          exact hr1
        · rw [show m - img.width - t * img.width = m - (t + 1) * img.width by omega]
          exact hl1
      rw [hstep, ih (j + 1) (m - img.width) _ H1]
      by_cases hnm : n * img.width ≤ m - img.width
      · have hnm1 : (n + 1) * img.width ≤ m := by omega
        rw [if_pos hnm, if_pos hnm1]
        simp only [List.append_assoc, Prod.mk.injEq, Sink.mk.injEq, Option.some.injEq,
          and_true, true_and]
        omega
      · have hnm1 : ¬ (n + 1) * img.width ≤ m := by omega
        have hRt : R.take m = R := List.take_of_length_le (by rw [hR]; exact hwm)
        rw [if_neg hnm, if_neg hnm1, List.take_append_eq_append_take, hR, hRt]
        simp only [List.append_assoc]
    · rw [if_neg hwm, hRm (by omega)] at hp
      have hnm1 : ¬ (n + 1) * img.width ≤ m := by omega
      have hstep : row_loop img (n + 1) j { budget := some m, data := d } =
          (some (Outcome.exited 1), { budget := some 0, data := d ++ R.take m }) := by
        simp only [row_loop, hrow, hp]
      rw [hstep, if_neg hnm1, List.take_append_eq_append_take, hR,
        show m - img.width = 0 by omega, List.take_zero, List.append_nil]

theorem flatten_singletons_take (l : List Nat) (m : Nat) :
    ((l.map fun b => [b]).take m).flatten = l.take m := by
  induction l generalizing m with
  | nil => simp
  | cons a l ih =>
    cases m with
    | zero => simp
    | succ m => simp [ih]

theorem flatten_singletons (l : List Nat) : (l.map fun b => [b]).flatten = l := by
  induction l with
  | nil => simp
  | cons a l ih => simp [ih]

theorem writes_flatten (img : Image) :
    (writes img).flatten = header img.width img.height ++ payload img := by
  simp [writes, flatten_singletons]

theorem rows_ok_reached (img : Image) (k : Nat) (hr : rows_ok img) : reached_ok img k := by
  intro t ht _
  have htl : t < img.rows.length := lt_of_lt_of_le ht hr.1
  refine ⟨img.rows[t], List.getElem?_eq_getElem htl, ?_⟩
  exact le_trans (Nat.mul_le_mul_right _ (Nat.min_le_left _ _))
    (hr.2 _ (List.getElem_mem htl))

/-- A sink that accepts `k` writes and rejects the next one, on a run with
more than `k` writes: the run ends with `exit(1)` at the rejected write and
the sink holds the first `k` writes. -/
theorem encode_budget (img : Image) (k : Nat) (hs : supported img.color_type)
    (hk : k ≤ img.width * img.height) (hr : reached_ok img k) :
    encode img { budget := some k, data := [] } =
      (Outcome.exited 1, { budget := some 0, data := ((writes img).take k).flatten }) := by
  have hsup : ¬(img.color_type ≠ PNG_COLOR_TYPE_RGB ∧
        img.color_type ≠ PNG_COLOR_TYPE_RGB_ALPHA ∧
        img.color_type ≠ PNG_COLOR_TYPE_GRAY ∧
        img.color_type ≠ PNG_COLOR_TYPE_GRAY_ALPHA) := by
    unfold supported at hs
    tauto
  cases k with
  | zero => simp [encode, fwrite]
  | succ m =>
    have H : ∀ t, t < img.height → t * img.width ≤ m →
        ∃ row, img.rows[0 + t]? = some row ∧
          min img.width (m - t * img.width + 1) * samples_per_pixel img.color_type ≤
            row.length := by
      intro t ht htm
      obtain ⟨row, h1, h2⟩ := hr t ht (by omega)
      refine ⟨row, by simpa using h1, ?_⟩
      rw [show m - t * img.width + 1 = m + 1 - t * img.width by omega]
      exact h2
    have hl := row_loop_budget img hs img.height 0 m (header img.width img.height) H
    have hnot : ¬ img.height * img.width ≤ m := by
      rw [Nat.mul_comm]
      omega
    rw [if_neg hnot] at hl
    have hw : fwrite { budget := some (m + 1), data := [] } (header img.width img.height) =
        (true, { budget := some m, data := header img.width img.height }) := by
      simp [fwrite]
    simp only [encode, hw, hsup, if_false, hl]
    simp [writes, flatten_singletons_take, payload_eq_from]

/-! ## Dimensions above 16 bits -/

theorem header_dims_header (w h : Nat) (rest : List Nat) :
    header_dims (header w h ++ rest) = some (w % 65536, h % 65536) := by
  have e : (0xff : Nat) = 2 ^ 8 - 1 := by norm_num
  simp only [header, Nat.shiftRight_eq_div_pow, e, Nat.and_pow_two_sub_one_eq_mod, header_dims,
    List.cons_append, List.nil_append, Option.some.injEq, Prod.mk.injEq]
  omega

theorem payload_length (img : Image) : (payload img).length = img.width * img.height := by
  unfold payload
  rw [grid_length, Nat.mul_comm]

theorem mod_mul_lt {w h : Nat} (hw : 0 < w) (hh : 0 < h) (hbig : 65536 ≤ w ∨ 65536 ≤ h) :
    (w % 65536) * (h % 65536) < w * h := by
  have hwm : w % 65536 ≤ w := Nat.mod_le _ _
  have hhm : h % 65536 ≤ h := Nat.mod_le _ _
  rcases hbig with hb | hb
  · have hlt : w % 65536 < w := lt_of_lt_of_le (Nat.mod_lt _ (by norm_num)) hb
    calc (w % 65536) * (h % 65536) ≤ (w % 65536) * h := Nat.mul_le_mul_left _ hhm
      _ < w * h := Nat.mul_lt_mul_of_pos_right hlt hh
  · have hlt : h % 65536 < h := lt_of_lt_of_le (Nat.mod_lt _ (by norm_num)) hb
    calc (w % 65536) * (h % 65536) ≤ w * (h % 65536) := Nat.mul_le_mul_right _ hwm
      _ < w * h := Nat.mul_lt_mul_of_pos_left hlt hw

/-! ## The samples a run reads -/

theorem read_pixel_take (ct : Int) (row : List Nat) (src L : Nat)
    (h : src + samples_per_pixel ct ≤ L) :
    read_pixel ct (row.take L) src = read_pixel ct row src := by
  have hpos := samples_per_pixel_pos ct
  unfold read_pixel
  by_cases h1 : ct = PNG_COLOR_TYPE_RGB_ALPHA ∨ ct = PNG_COLOR_TYPE_RGB
  · have h3 := samples_per_pixel_rgb (Or.symm h1)
    rw [if_pos h1, if_pos h1, List.getElem?_take_of_lt (show src < L by omega),
      List.getElem?_take_of_lt (show src + 1 < L by omega),
      List.getElem?_take_of_lt (show src + 2 < L by omega)]
  · rw [if_neg h1, if_neg h1, List.getElem?_take_of_lt (show src < L by omega)]

theorem read_indices_lt {ct : Int} {src k L : Nat} (hk : k ∈ read_indices ct src)
    (h : src + samples_per_pixel ct ≤ L) : k < L := by
  unfold read_indices at hk
  split_ifs at hk with h1 h2
  · have h3 := samples_per_pixel_rgb (Or.symm h1)
    simp only [List.mem_cons, List.mem_singleton, List.not_mem_nil, or_false] at hk
    omega
  · have hpos := samples_per_pixel_pos ct
    simp only [List.mem_singleton] at hk
    omega
  · simp at hk

/-- The model of a read is defined exactly when the layout is supported and
the indices read lie in the row. -/
theorem read_pixel_isSome_iff (ct : Int) (row : List Nat) (src : Nat) :
    (read_pixel ct row src).isSome = true ↔
      supported ct ∧ ∀ k ∈ read_indices ct src, k < row.length := by
  unfold read_pixel read_indices supported
  by_cases h1 : ct = PNG_COLOR_TYPE_RGB_ALPHA ∨ ct = PNG_COLOR_TYPE_RGB
  · have hsup : ct = PNG_COLOR_TYPE_RGB ∨ ct = PNG_COLOR_TYPE_RGB_ALPHA ∨
        ct = PNG_COLOR_TYPE_GRAY ∨ ct = PNG_COLOR_TYPE_GRAY_ALPHA := by tauto
    rw [if_pos h1, if_pos h1]
    by_cases hl : src + 2 < row.length
    · rw [List.getElem?_eq_getElem (show src < row.length by omega),
        List.getElem?_eq_getElem (show src + 1 < row.length by omega),
        List.getElem?_eq_getElem hl]
      simp only [Option.isSome_some, true_iff]
      refine ⟨hsup, fun k hk => ?_⟩
      simp only [List.mem_cons, List.mem_singleton, List.not_mem_nil, or_false] at hk
      omega
    · rw [List.getElem?_eq_none (show row.length ≤ src + 2 by omega)]
      constructor
      · intro h
        split at h <;> simp_all
      · intro h
        exact absurd (h.2 (src + 2) (by simp)) hl
  · rw [if_neg h1, if_neg h1]
    by_cases h2 : ct = PNG_COLOR_TYPE_GRAY_ALPHA ∨ ct = PNG_COLOR_TYPE_GRAY
    · have hsup : ct = PNG_COLOR_TYPE_RGB ∨ ct = PNG_COLOR_TYPE_RGB_ALPHA ∨
          ct = PNG_COLOR_TYPE_GRAY ∨ ct = PNG_COLOR_TYPE_GRAY_ALPHA := by tauto
      rw [if_pos h2, if_pos h2]
      by_cases hl : src < row.length
      · rw [List.getElem?_eq_getElem hl]
        simp only [Option.isSome_some, true_iff]
        refine ⟨hsup, fun k hk => ?_⟩
        simp only [List.mem_singleton] at hk
        omega
      · rw [List.getElem?_eq_none (show row.length ≤ src by omega)]
        simp only [Option.isSome_none, Bool.false_eq_true, false_iff, not_and]
        intro _ h
        exact hl (h src (by simp))
    · rw [if_neg h2, if_neg h2]
      simp only [Option.isSome_none, Bool.false_eq_true, false_iff, not_and]
      intro hsup
      tauto

theorem read_pixel_next {ct : Int} {row : List Nat} {src r g b s1 : Nat}
    (h : read_pixel ct row src = some (r, g, b, s1)) :
    s1 = src + samples_per_pixel ct := by
  have hsome : (read_pixel ct row src).isSome = true := by rw [h]; rfl
  obtain ⟨hs, hidx⟩ := (read_pixel_isSome_iff ct row src).1 hsome
  by_cases h1 : ct = PNG_COLOR_TYPE_RGB ∨ ct = PNG_COLOR_TYPE_RGB_ALPHA
  · have hl : src + 2 < row.length := by
      apply hidx
      unfold read_indices
      rw [if_pos (Or.symm h1)]
      simp
    rw [read_pixel_rgb h1 hl] at h
    simp only [Option.some.injEq, Prod.mk.injEq] at h
    exact h.2.2.2.symm
  · have h2 : ct = PNG_COLOR_TYPE_GRAY ∨ ct = PNG_COLOR_TYPE_GRAY_ALPHA := by
      unfold supported at hs
      tauto
    have hl : src < row.length := by
      apply hidx
      unfold read_indices
      rw [if_neg (fun hc => h1 (Or.symm hc)), if_pos (Or.symm h2)]
      simp
    rw [read_pixel_gray h2 hl] at h
    simp only [Option.some.injEq, Prod.mk.injEq] at h
    exact h.2.2.2.symm

theorem pixel_loop_take (ct : Int) (row : List Nat) (L : Nat) :
    ∀ (n src : Nat) (s : Sink), src + n * samples_per_pixel ct ≤ L →
      pixel_loop ct (row.take L) n src s = pixel_loop ct row n src s := by
  intro n
  induction n with
  | zero => intro src s _; rfl
  | succ n ih =>
    intro src s hlen
    have hlen1 : src + samples_per_pixel ct + n * samples_per_pixel ct ≤ L := by
      rw [Nat.succ_mul] at hlen; omega
    simp only [pixel_loop, read_pixel_take ct row src L (by omega)]
    cases hrd : read_pixel ct row src with
    | none => rfl
    | some p =>
      obtain ⟨r, g, b, s1⟩ := p
      have hs1 := read_pixel_next hrd
      subst hs1
      simp only
      cases hw : fwrite s [lum_byte r g b] with
      | mk ok s2 =>
        cases ok with
        | false => rfl
        | true => exact ih _ s2 hlen1

/-- Cutting every row after its first `width * c` samples does not change the
run: nothing at or after index `width * c` of a row is read. -/
theorem encode_cut_rows (img : Image) (hs : supported img.color_type) (s : Sink) :
    encode (cut_rows img) s = encode img s := by
  have h := encode_map_congr img.rows
    (List.take (img.width * samples_per_pixel img.color_type)) id img.width img.height hs hs
    (fun row s => by
      have hp := pixel_loop_take img.color_type row
        (img.width * samples_per_pixel img.color_type) img.width 0 s (by omega)
      simpa using hp) s
  simpa [cut_rows] using h

/-! ## The size announced by the comment of `convert_png` -/

/-- A run that returns has written the `4 + width*height*2` bytes of the
comment at lines 33-36 only for an image without pixels. -/
theorem documented_size_iff (img : Image) (b : Option Nat)
    (h : (encode img { budget := b, data := [] }).1 = Outcome.returned) :
    (encode img { budget := b, data := [] }).2.data.length = 4 + img.width * img.height * 2 ↔
      img.width * img.height = 0 := by
  rw [encode_returned_length img _ h]
  simp only [List.length_nil]
  omega

/-! ## The claims -/

/-- C1: for every decoded image with a supported layout, width and height at
most 65535, complete rows and 8-bit samples, a run whose sink accepts every
write returns and the bytes written are the container of the spec: the four
header bytes, then for each row from the top and each pixel from the left the
truncated luminance of that pixel; the byte at offset `4 + j*width + i` is
that of pixel `i` of row `j`.  The same holds for the whole of `convert_png`
and `main` (exit status 0) when the input decodes to the image. -/
theorem convert_png_output (img : Image) (hs : supported img.color_type)
    (hw : img.width ≤ 65535) (hh : img.height ≤ 65535) (hr : rows_ok img) (h8 : samples_ok img) :
    encode img empty_sink = (Outcome.returned, { budget := none, data := spec_output img }) ∧
    (∀ env, decodes env img → env.budget = none →
      convert_png env = (Outcome.returned, { budget := none, data := spec_output img }) ∧
      main 3 env = (Outcome.exited 0, { budget := none, data := spec_output img })) ∧
    (spec_output img).take 4 =
      [img.width / 256, img.width % 256, img.height / 256, img.height % 256] ∧
    ∀ j i, j < img.height → i < img.width →
      (spec_output img)[4 + j * img.width + i]? =
        some (spec_pixel img.color_type (img.rows.getD j []) i) := by
  have henc : encode img empty_sink =
      (Outcome.returned, { budget := none, data := spec_output img }) := by
    have h := encode_complete img hs hr []
    rw [spec_output_eq img hs hw hh hr h8] at h
    simpa [empty_sink] using h
  refine ⟨henc, ?_, ?_, ?_⟩
  · intro env hd hb
    have hc : convert_png env =
        (Outcome.returned, { budget := none, data := spec_output img }) := by
      rw [convert_png_decodes hd, hb]
      exact henc
    refine ⟨hc, ?_⟩
    simp [main, hc]
  · simp [spec_output]
  · intro j i hj hi
    unfold spec_output
    rw [List.getElem?_append_right (by simp; omega)]
    have e : 4 + j * img.width + i -
        [img.width / 256, img.width % 256, img.height / 256, img.height % 256].length =
        j * img.width + i := by simp; omega
    rw [e]
    exact grid_getElem? (fun j i => spec_pixel img.color_type (img.rows.getD j []) i)
      img.width img.height j i hj hi

/-- C1, at the two images of the spec: the 2x1 RGB image (255,0,0), (0,0,0)
gives `00 02 00 01 4C 00` and the 1x2 image with rows (0,0,0), (255,255,255)
gives the payload `00 FF`. -/
theorem convert_png_output_witness :
    (supported img_2x1.color_type ∧ img_2x1.width ≤ 65535 ∧ img_2x1.height ≤ 65535 ∧
      rows_ok img_2x1 ∧ samples_ok img_2x1) ∧
    encode img_2x1 empty_sink =
      (Outcome.returned, { budget := none, data := [0x00, 0x02, 0x00, 0x01, 0x4C, 0x00] }) ∧
    main 3 (env_of img_2x1 none) =
      (Outcome.exited 0, { budget := none, data := [0x00, 0x02, 0x00, 0x01, 0x4C, 0x00] }) ∧
    encode img_1x2 empty_sink =
      (Outcome.returned, { budget := none, data := [0x00, 0x01, 0x00, 0x02, 0x00, 0xFF] }) := by
  have s1 : supported img_2x1.color_type := by decide
  have r1 : rows_ok img_2x1 := by unfold rows_ok; decide
  have v1 : samples_ok img_2x1 := by unfold samples_ok; decide
  have s2 : supported img_1x2.color_type := by decide
  have r2 : rows_ok img_1x2 := by unfold rows_ok; decide
  have v2 : samples_ok img_1x2 := by unfold samples_ok; decide
  have e1 : spec_output img_2x1 = [0x00, 0x02, 0x00, 0x01, 0x4C, 0x00] := by decide!
  have e2 : spec_output img_1x2 = [0x00, 0x01, 0x00, 0x02, 0x00, 0xFF] := by decide!
  have h1 := convert_png_output img_2x1 s1 (by decide) (by decide) r1 v1
  have h2 := convert_png_output img_1x2 s2 (by decide) (by decide) r2 v2
  rw [e1] at h1
  rw [e2] at h2
  exact ⟨⟨s1, by decide, by decide, r1, v1⟩, h1.1,
    (h1.2.1 (env_of img_2x1 none) (decodes_env_of _ _) rfl).2, h2.1⟩

/-- C2: for every supported layout and every width and height up to 65535
(zero included), whatever the sink, a run that returns has written exactly
`4 + width*height` bytes; and a run on complete rows with a sink that accepts
every write does return, with that many bytes. -/
theorem encode_size (img : Image) (hs : supported img.color_type)
    (_hw : img.width ≤ 65535) (_hh : img.height ≤ 65535) :
    (∀ b, (encode img { budget := b, data := [] }).1 = Outcome.returned →
      (encode img { budget := b, data := [] }).2.data.length = 4 + img.width * img.height) ∧
    (rows_ok img → (encode img empty_sink).1 = Outcome.returned ∧
      (encode img empty_sink).2.data.length = 4 + img.width * img.height) := by
  have h1 : ∀ b, (encode img { budget := b, data := [] }).1 = Outcome.returned →
      (encode img { budget := b, data := [] }).2.data.length = 4 + img.width * img.height := by
    intro b hb
    rw [encode_returned_length img _ hb]
    simp
  refine ⟨h1, fun hr => ?_⟩
  have hret : (encode img empty_sink).1 = Outcome.returned := by
    unfold empty_sink
    rw [encode_complete img hs hr []]
  exact ⟨hret, h1 none hret⟩

/-- C2 at the 2x1 RGB image of the spec: the run on a sink that accepts every
write returns with `4 + 2*1 = 6` bytes, and so does the run on a sink that
accepts exactly the three writes (the header and the two pixels). -/
theorem encode_size_witness :
    (supported img_2x1.color_type ∧ img_2x1.width ≤ 65535 ∧ img_2x1.height ≤ 65535 ∧
      rows_ok img_2x1) ∧
    (encode img_2x1 empty_sink).1 = Outcome.returned ∧
    (encode img_2x1 empty_sink).2.data.length = 4 + 2 * 1 ∧
    (encode img_2x1 { budget := some 3, data := [] }).1 = Outcome.returned ∧
    (encode img_2x1 { budget := some 3, data := [] }).2.data.length = 4 + 2 * 1 := by
  have hs : supported img_2x1.color_type := by decide
  have hr : rows_ok img_2x1 := by unfold rows_ok; decide
  have h := encode_size img_2x1 hs (by decide) (by decide)
  have h3 : (encode img_2x1 { budget := some 3, data := [] }).1 = Outcome.returned := by
    decide!
  exact ⟨⟨hs, by decide, by decide, hr⟩, (h.2 hr).1, (h.2 hr).2, h3, h.1 (some 3) h3⟩

/-- C3: for every width and height in 0..65535, whatever the layout and the
rows, when the sink accepts the first write the first four bytes written are
`[width>>8, width&0xff, height>>8, height&0xff]`, and reading bytes 0-1 and
2-3 as big-endian unsigned 16-bit integers gives back width and height. -/
theorem header_round_trip (img : Image) (b : Option Nat) (hb : b ≠ some 0)
    (hw : img.width ≤ 65535) (hh : img.height ≤ 65535) :
    (encode img { budget := b, data := [] }).2.data.take 4 =
      [img.width >>> 8, img.width &&& 0xff, img.height >>> 8, img.height &&& 0xff] ∧
    header_dims (encode img { budget := b, data := [] }).2.data =
      some (img.width, img.height) := by
  obtain ⟨rest, hrest⟩ := encode_data_header img b hb
  have e : (0xff : Nat) = 2 ^ 8 - 1 := by norm_num
  rw [hrest, header_eq hw hh]
  constructor
  · simp only [Nat.shiftRight_eq_div_pow, e, Nat.and_pow_two_sub_one_eq_mod]
    simp
  · simp only [header_dims, List.cons_append, List.nil_append, Option.some.injEq, Prod.mk.injEq]
    omega

/-- C3 at width 300 and height 65535: the header is `01 2C FF FF`. -/
theorem header_round_trip_witness :
    (encode { width := 300, height := 65535, color_type := PNG_COLOR_TYPE_PALETTE, rows := [] }
      empty_sink).2.data.take 4 = [0x01, 0x2C, 0xFF, 0xFF] ∧
    header_dims (encode
      { width := 300, height := 65535, color_type := PNG_COLOR_TYPE_PALETTE, rows := [] }
      empty_sink).2.data = some (300, 65535) :=
  header_round_trip
    { width := 300, height := 65535, color_type := PNG_COLOR_TYPE_PALETTE, rows := [] }
    none (by decide) (by decide) (by decide)

/-- C4: the byte emitted for a single RGB pixel is 76 for (255,0,0), 149 for
(0,255,0), 29 for (0,0,255), 255 for (255,255,255) and 0 for (0,0,0), and it
is the value `(int)(0.299*r + 0.587*g + 0.114*b)` of the double arithmetic. -/
theorem luminance_exact :
    (encode (rgb_pixel 255 0 0) empty_sink =
        (Outcome.returned, { budget := none, data := [0, 1, 0, 1, 76] }) ∧
      encode (rgb_pixel 0 255 0) empty_sink =
        (Outcome.returned, { budget := none, data := [0, 1, 0, 1, 149] }) ∧
      encode (rgb_pixel 0 0 255) empty_sink =
        (Outcome.returned, { budget := none, data := [0, 1, 0, 1, 29] }) ∧
      encode (rgb_pixel 255 255 255) empty_sink =
        (Outcome.returned, { budget := none, data := [0, 1, 0, 1, 255] }) ∧
      encode (rgb_pixel 0 0 0) empty_sink =
        (Outcome.returned, { budget := none, data := [0, 1, 0, 1, 0] })) ∧
    toInt (lum 255 0 0) = 76 ∧ toInt (lum 0 255 0) = 149 ∧ toInt (lum 0 0 255) = 29 ∧
      toInt (lum 255 255 255) = 255 ∧ toInt (lum 0 0 0) = 0 := by
  decide!

/-- C5, as stated, fails: the GRAY sample 1 is encoded as the byte 0, since
`0.299 + 0.587 + 0.114` is `0.9999999999999999` in double arithmetic. -/
theorem gray_identity_fails :
    encode (gray_pixel 1) empty_sink =
      (Outcome.returned, { budget := none, data := [0, 1, 0, 1, 0] }) ∧
    ¬ ∀ v, v ≤ 255 → encode (gray_pixel v) empty_sink =
      (Outcome.returned, { budget := none, data := [0, 1, 0, 1, v] }) := by
  have h0 : encode (gray_pixel 1) empty_sink =
      (Outcome.returned, { budget := none, data := [0, 1, 0, 1, 0] }) := by decide!
  refine ⟨h0, fun h => ?_⟩
  have h1 := h 1 (by decide)
  rw [h0] at h1
  revert h1
  decide

/-- C5, amended: for every sample `v` in 0..255 a GRAY pixel with sample `v`
is encoded as `v`, except for the 65 samples of `gray_darkened`, for which the
sum of the three products falls just below `v` and the byte is `v - 1`. -/
theorem gray_identity_amended (v : Nat) (hv : v ≤ 255) :
    encode (gray_pixel v) empty_sink =
      (Outcome.returned,
        { budget := none, data := [0, 1, 0, 1, if v ∈ gray_darkened then v - 1 else v] }) := by
  have H : ∀ v, v < 256 → encode (gray_pixel v) empty_sink =
      (Outcome.returned,
        { budget := none, data := [0, 1, 0, 1, if v ∈ gray_darkened then v - 1 else v] }) := by
    decide!
  exact H v (by omega)

/-- C5, amended, at the samples 128 (encoded as 127) and 255 (as 255). -/
theorem gray_identity_amended_witness :
    encode (gray_pixel 128) empty_sink =
      (Outcome.returned, { budget := none, data := [0, 1, 0, 1, 127] }) ∧
    encode (gray_pixel 255) empty_sink =
      (Outcome.returned, { budget := none, data := [0, 1, 0, 1, 255] }) :=
  ⟨gray_identity_amended 128 (by decide), gray_identity_amended 255 (by decide)⟩

/-- C6: for every width, height, sink and pixels, the run on an RGBA image is
the run on the RGB image with the same colours, whichever of two alpha
assignments it carries; likewise a GRAY_ALPHA image gives the run of the GRAY
image with the same grays.  In particular the pixels (R,G,B,0) and
(R,G,B,255) give the same output. -/
theorem alpha_ignored (w h : Nat) (s : Sink)
    (rows : List (List ((Nat × Nat × Nat) × Nat × Nat)))
    (grows : List (List (Nat × Nat × Nat))) :
    (encode (rgba_image w h (rows.map (List.map fun p => (p.1, p.2.1)))) s =
        encode (rgb_image w h (rows.map (List.map Prod.fst))) s ∧
      encode (rgba_image w h (rows.map (List.map fun p => (p.1, p.2.2)))) s =
        encode (rgb_image w h (rows.map (List.map Prod.fst))) s) ∧
    (encode (gray_alpha_image w h (grows.map (List.map fun p => (p.1, p.2.1)))) s =
        encode (gray_image w h (grows.map (List.map Prod.fst))) s ∧
      encode (gray_alpha_image w h (grows.map (List.map fun p => (p.1, p.2.2)))) s =
        encode (gray_image w h (grows.map (List.map Prod.fst))) s) ∧
    ∀ R G B : Nat, encode (rgba_image 1 1 [[((R, G, B), 0)]]) s =
      encode (rgba_image 1 1 [[((R, G, B), 255)]]) s := by
  refine ⟨⟨?_, ?_⟩, ⟨?_, ?_⟩, ?_⟩
  · rw [encode_rgba_rgb]
    simp only [List.map_map, Function.comp_def]
  · rw [encode_rgba_rgb]
    simp only [List.map_map, Function.comp_def]
  · rw [encode_gray_alpha_gray]
    simp only [List.map_map, Function.comp_def]
  · rw [encode_gray_alpha_gray]
    simp only [List.map_map, Function.comp_def]
  · intro R G B
    rw [encode_rgba_rgb, encode_rgba_rgb]
    rfl

/-- C7: for every image whose colour type is none of RGB, RGBA, GRAY and
GRAY_ALPHA, whatever its width, height and rows, the run ends with
`exit(1)`; when the sink accepts the first write it then holds the four
header bytes and nothing else.  The same holds for `main`. -/
theorem unsupported_layout (img : Image) (hns : ¬ supported img.color_type) :
    (∀ b, (encode img { budget := b, data := [] }).1 = Outcome.exited 1) ∧
    (∀ b, b ≠ some 0 →
      (encode img { budget := b, data := [] }).2.data = header img.width img.height ∧
      (encode img { budget := b, data := [] }).2.data.length = 4) ∧
    (∀ env, decodes env img → (main 3 env).1 = Outcome.exited 1 ∧
      (env.budget ≠ some 0 → (main 3 env).2.data = header img.width img.height)) := by
  have hc : img.color_type ≠ PNG_COLOR_TYPE_RGB ∧
      img.color_type ≠ PNG_COLOR_TYPE_RGB_ALPHA ∧
      img.color_type ≠ PNG_COLOR_TYPE_GRAY ∧
      img.color_type ≠ PNG_COLOR_TYPE_GRAY_ALPHA := by
    unfold supported at hns
    tauto
  have h1 : ∀ b, (encode img { budget := b, data := [] }).1 = Outcome.exited 1 := by
    intro b
    rcases b with _ | _ | k <;> simp [encode, fwrite, hc]
  have h2 : ∀ b, b ≠ some 0 →
      (encode img { budget := b, data := [] }).2.data = header img.width img.height := by
    intro b hb
    rcases b with _ | _ | k
    · simp [encode, fwrite, hc]
    · exact absurd rfl hb
    · simp [encode, fwrite, hc]
  refine ⟨h1, fun b hb => ⟨h2 b hb, by rw [h2 b hb]; rfl⟩, ?_⟩
  intro env hd
  have hm : main 3 env = encode img { budget := env.budget, data := [] } := by
    have h := h1 env.budget
    rw [← convert_png_decodes hd] at h ⊢
    unfold main
    cases hcv : convert_png env with
    | mk o s2 =>
      rw [hcv] at h
      simp only at h
      subst h
      simp
  rw [hm]
  exact ⟨h1 _, h2 _⟩

/-- C7 at a 2x2 PALETTE image: exit status 1 and the header `00 02 00 02`. -/
theorem unsupported_layout_witness :
    ¬ supported img_palette.color_type ∧
    (main 3 (env_of img_palette none)).1 = Outcome.exited 1 ∧
    (main 3 (env_of img_palette none)).2.data = [0, 2, 0, 2] := by
  have h := (unsupported_layout img_palette (by decide)).2.2 _ (decodes_env_of img_palette none)
  exact ⟨by decide, h.1, h.2 (by decide)⟩

/-- C8 fails on the code: with three arguments and both files open, an input
of five bytes, and an input of eight bytes that are not the PNG signature,
make `convert_png` return at line 62, and `main` then returns 0: the exit
status is 0 and the output file is left empty. -/
theorem invalid_signature_exit_status :
    main 3 env_hello = (Outcome.exited 0, { budget := none, data := [] }) ∧
    main 3 env_jpeg = (Outcome.exited 0, { budget := none, data := [] }) := by
  decide

/-- C9: for every width, height, sink and gray samples, the run on a GRAY
image is, byte for byte and in its outcome, the run on the RGB image of the
same dimensions whose pixels are `(v,v,v)` for the gray samples `v`. -/
theorem gray_equals_replicated_rgb (w h : Nat) (rows : List (List Nat)) (s : Sink) :
    encode (gray_image w h rows) s =
      encode (rgb_image w h (rows.map (List.map fun v => (v, v, v)))) s :=
  encode_gray_rgb w h rows s

/-- C11 fails on the code: the comment above `convert_png` announces
`4 + width*height*2` bytes, which is 8 for the 2x1 image of the spec, but the
run writes the 4 header bytes and one byte per pixel, 6 bytes in all. -/
theorem documented_size_fails :
    encode img_2x1 empty_sink =
      (Outcome.returned, { budget := none, data := [0x00, 0x02, 0x00, 0x01, 0x4C, 0x00] }) ∧
    (encode img_2x1 empty_sink).2.data.length = 4 + img_2x1.width * img_2x1.height ∧
    (encode img_2x1 empty_sink).2.data.length ≠ 4 + img_2x1.width * img_2x1.height * 2 := by
  decide!

/-- C12: with a sink that accepts the first `k` writes and rejects write
`k + 1` (the header is one write, each pixel one write, so `k ≤ width*height`),
on a supported image the run ends with `exit(1)` and the sink, left as the
rejected call found it, holds the concatenation of the first `k` writes of
the run that returns, a prefix of its output.  Only the pixels up to the one
whose write is rejected need to be present: nothing after it is read, and no
further write is made.  The same holds for `main`. -/
theorem write_failure (img : Image) (k : Nat) (hs : supported img.color_type)
    (hk : k ≤ img.width * img.height) (hr : reached_ok img k) :
    encode img { budget := some k, data := [] } =
      (Outcome.exited 1, { budget := some 0, data := ((writes img).take k).flatten }) ∧
    (writes img).length = 1 + img.width * img.height ∧
    ((writes img).take k).flatten <+: (writes img).flatten ∧
    (rows_ok img → reached_ok img k ∧
      encode img empty_sink =
        (Outcome.returned, { budget := none, data := (writes img).flatten })) ∧
    (∀ env, decodes env img → env.budget = some k →
      main 3 env =
        (Outcome.exited 1, { budget := some 0, data := ((writes img).take k).flatten })) := by
  have he := encode_budget img k hs hk hr
  refine ⟨he, ?_, ?_, ?_, ?_⟩
  · simp only [writes, List.length_cons, List.length_map, payload]
    rw [grid_length, Nat.mul_comm]
    omega
  · have h := List.take_append_drop k (writes img)
    refine ⟨((writes img).drop k).flatten, ?_⟩
    rw [← List.flatten_append, h]
  · intro hrows
    refine ⟨rows_ok_reached img k hrows, ?_⟩
    rw [writes_flatten]
    have h := encode_complete img hs hrows []
    simpa [empty_sink] using h
  · intro env hd hb
    have hc : convert_png env =
        (Outcome.exited 1, { budget := some 0, data := ((writes img).take k).flatten }) := by
      rw [convert_png_decodes hd, hb]
      exact he
    simp [main, hc]

/-- C12 at the 2x2 image whose second row is missing, with a sink that
accepts 2 writes: the header and the first pixel are written, the write of
the second pixel is rejected, the run exits with status 1 and the sink holds
`00 02 00 02 4C`. -/
theorem write_failure_witness :
    supported img_cut.color_type ∧ 2 ≤ img_cut.width * img_cut.height ∧ reached_ok img_cut 2 ∧
    encode img_cut { budget := some 2, data := [] } =
      (Outcome.exited 1, { budget := some 0, data := [0x00, 0x02, 0x00, 0x02, 0x4C] }) := by
  have hr : reached_ok img_cut 2 := by
    intro t _ htk
    have ht0 : t = 0 := by
      have : t * 2 < 2 := htk
      omega
    subst ht0
    exact ⟨[255, 0, 0, 0, 0, 0], rfl, by decide⟩
  have h := (write_failure img_cut 2 (by decide) (by decide) hr).1
  have e : ((writes img_cut).take 2).flatten = [0x00, 0x02, 0x00, 0x02, 0x4C] := by decide!
  rw [e] at h
  exact ⟨by decide, by decide, hr, h⟩

/-- C13: for every width and height below `2^32`, on a supported image with
complete rows the run does not fail on the dimensions: it returns, the header
bytes are `(width>>8) mod 256`, `width mod 256`, `(height>>8) mod 256`,
`height mod 256`, they decode to `(width mod 65536, height mod 65536)`, and
the payload has `width*height` bytes.  When width or height is 65536 or more,
the dimensions read back differ from the image's, and the payload length
differs from the product of the header fields, which is smaller, on every
image with positive width and height: libpng reports an error for a zero
width or height (and line 83 exits), so these are all the images the run
receives. -/
theorem dimension_overflow (img : Image) (hs : supported img.color_type)
    (_hw : img.width < 2 ^ 32) (_hh : img.height < 2 ^ 32) (hr : rows_ok img) :
    encode img empty_sink =
      (Outcome.returned,
        { budget := none, data := header img.width img.height ++ payload img }) ∧
    header img.width img.height =
      [(img.width >>> 8) % 256, img.width % 256, (img.height >>> 8) % 256, img.height % 256] ∧
    header_dims (header img.width img.height ++ payload img) =
      some (img.width % 65536, img.height % 65536) ∧
    (payload img).length = img.width * img.height ∧
    ((65536 ≤ img.width ∨ 65536 ≤ img.height) →
      (img.width % 65536, img.height % 65536) ≠ (img.width, img.height) ∧
      (0 < img.width → 0 < img.height →
        (payload img).length ≠ (img.width % 65536) * (img.height % 65536) ∧
        (img.width % 65536) * (img.height % 65536) < (payload img).length)) := by
  refine ⟨?_, ?_, header_dims_header _ _ _, payload_length img, ?_⟩
  · have h := encode_complete img hs hr []
    simpa [empty_sink] using h
  · have e : (0xff : Nat) = 2 ^ 8 - 1 := by norm_num
    simp only [header, e, Nat.and_pow_two_sub_one_eq_mod]
  · intro hbig
    refine ⟨?_, fun hw hh => ?_⟩
    · intro heq
      simp only [Prod.mk.injEq] at heq
      omega
    · have hlt : (img.width % 65536) * (img.height % 65536) < (payload img).length := by
        rw [payload_length]
        exact mod_mul_lt hw hh hbig
      exact ⟨Nat.ne_of_gt hlt, hlt⟩

/-- C13 at width 65536 and height 1: the header is `00 00 00 01`, it decodes
to (0, 1) and not to (65536, 1), and 65536 payload bytes follow, not the
`0 * 1` of the header fields. -/
theorem dimension_overflow_witness :
    (supported img_wide.color_type ∧ img_wide.width < 2 ^ 32 ∧ img_wide.height < 2 ^ 32 ∧
      rows_ok img_wide) ∧
    encode img_wide empty_sink =
      (Outcome.returned, { budget := none, data := [0, 0, 0, 1] ++ payload img_wide }) ∧
    header_dims ([0, 0, 0, 1] ++ payload img_wide) = some (0, 1) ∧
    (payload img_wide).length = 65536 ∧
    (img_wide.width % 65536, img_wide.height % 65536) ≠ (img_wide.width, img_wide.height) ∧
    (payload img_wide).length ≠ (img_wide.width % 65536) * (img_wide.height % 65536) := by
  have hs : supported img_wide.color_type := by decide
  have hl : ∀ n, (zero_row n).length = n := fun n => by simp [zero_row]
  have hr : rows_ok img_wide := by
    refine ⟨Nat.le_refl 1, fun row hrow => ?_⟩
    have hrow1 : row = zero_row 65536 := List.mem_singleton.1 hrow
    rw [hrow1, hl]
    decide
  have hw : img_wide.width < 2 ^ 32 := by decide
  have hh : img_wide.height < 2 ^ 32 := by decide
  have h := dimension_overflow img_wide hs hw hh hr
  have hbig := h.2.2.2.2 (Or.inl (by decide))
  have hne := (hbig.2 (by decide) (by decide)).1
  have e : header img_wide.width img_wide.height = [0, 0, 0, 1] := by decide
  rw [e] at h
  exact ⟨⟨hs, hw, hh, hr⟩, h.1, h.2.2.1, h.2.2.2.1, hbig.1, hne⟩

/-- C14: on an image with a supported layout, at least `height` rows and
`width * c` samples in every row, no run (whatever the sink) reads outside a
row or uses an unassigned channel.  For every pixel `i` below `width` the
indices read lie below `width * c`, the read succeeds and leaves the cursor
at `(i+1) * c`; the indices read at cursor `src` are `src`, `src+1`, `src+2`
for RGB and RGBA and `src` alone for GRAY and GRAY_ALPHA, so that the highest
index read is `(width-1)*c + 2`, respectively `(width-1)*c`; exactly one of
the two branch conditions holds; and cutting every row after `width * c`
samples leaves the run unchanged. -/
theorem reads_in_bounds (img : Image) (hs : supported img.color_type) (hr : rows_ok img) :
    (∀ s, (encode img s).1 ≠ Outcome.undefined) ∧
    (∀ i, i < img.width → ∀ row ∈ img.rows,
      (∀ k ∈ read_indices img.color_type (i * samples_per_pixel img.color_type),
        k < img.width * samples_per_pixel img.color_type ∧ k < row.length) ∧
      ∃ r g b, read_pixel img.color_type row (i * samples_per_pixel img.color_type) =
        some (r, g, b, (i + 1) * samples_per_pixel img.color_type)) ∧
    (∀ row src, (read_pixel img.color_type row src).isSome = true ↔
      ∀ k ∈ read_indices img.color_type src, k < row.length) ∧
    (∀ src, img.color_type = PNG_COLOR_TYPE_RGB ∨ img.color_type = PNG_COLOR_TYPE_RGB_ALPHA →
      read_indices img.color_type src = [src, src + 1, src + 2]) ∧
    (∀ src, img.color_type = PNG_COLOR_TYPE_GRAY ∨ img.color_type = PNG_COLOR_TYPE_GRAY_ALPHA →
      read_indices img.color_type src = [src]) ∧
    (((img.color_type = PNG_COLOR_TYPE_RGB_ALPHA ∨ img.color_type = PNG_COLOR_TYPE_RGB) ∧
        ¬(img.color_type = PNG_COLOR_TYPE_GRAY_ALPHA ∨ img.color_type = PNG_COLOR_TYPE_GRAY)) ∨
      (¬(img.color_type = PNG_COLOR_TYPE_RGB_ALPHA ∨ img.color_type = PNG_COLOR_TYPE_RGB) ∧
        (img.color_type = PNG_COLOR_TYPE_GRAY_ALPHA ∨ img.color_type = PNG_COLOR_TYPE_GRAY))) ∧
    (∀ s, encode (cut_rows img) s = encode img s) := by
  have hbr : ((img.color_type = PNG_COLOR_TYPE_RGB_ALPHA ∨ img.color_type = PNG_COLOR_TYPE_RGB) ∧
        ¬(img.color_type = PNG_COLOR_TYPE_GRAY_ALPHA ∨ img.color_type = PNG_COLOR_TYPE_GRAY)) ∨
      (¬(img.color_type = PNG_COLOR_TYPE_RGB_ALPHA ∨ img.color_type = PNG_COLOR_TYPE_RGB) ∧
        (img.color_type = PNG_COLOR_TYPE_GRAY_ALPHA ∨ img.color_type = PNG_COLOR_TYPE_GRAY)) := by
    rcases hs with h | h | h | h <;> rw [h] <;>
      simp [PNG_COLOR_TYPE_RGB, PNG_COLOR_TYPE_RGB_ALPHA, PNG_COLOR_TYPE_GRAY,
        PNG_COLOR_TYPE_GRAY_ALPHA]
  refine ⟨fun s => encode_defined img hr s, ?_, ?_, ?_, ?_, hbr, fun s => encode_cut_rows img hs s⟩
  · intro i hi row hrow
    have hlen := hr.2 row hrow
    have hle : i * samples_per_pixel img.color_type + samples_per_pixel img.color_type ≤
        img.width * samples_per_pixel img.color_type := by
      rw [← Nat.succ_mul]
      exact Nat.mul_le_mul_right _ hi
    refine ⟨fun k hk => ?_, ?_⟩
    · have h1 := read_indices_lt hk hle
      exact ⟨h1, lt_of_lt_of_le h1 hlen⟩
    · obtain ⟨r, g, b, hrd⟩ := @read_pixel_cursor img.color_type row
        (i * samples_per_pixel img.color_type) hs (le_trans hle hlen)
      refine ⟨r, g, b, ?_⟩
      rw [hrd, Nat.succ_mul]
  · intro row src
    rw [read_pixel_isSome_iff]
    exact ⟨fun h => h.2, fun h => ⟨hs, h⟩⟩
  · intro src h
    unfold read_indices
    rw [if_pos (Or.symm h)]
  · intro src h
    have hn : ¬(img.color_type = PNG_COLOR_TYPE_RGB_ALPHA ∨
        img.color_type = PNG_COLOR_TYPE_RGB) := by
      rcases hbr with hb | hb
      · exact absurd (Or.symm h) hb.2
      · exact hb.1
    unfold read_indices
    rw [if_neg hn, if_pos (Or.symm h)]

/-- C14 at the 2x1 RGB image of the spec: the second pixel reads the indices
3, 4 and 5 of its row of 6 samples, and the run on a sink that accepts one
write only is defined. -/
theorem reads_in_bounds_witness :
    supported img_2x1.color_type ∧ rows_ok img_2x1 ∧
    read_indices img_2x1.color_type 3 = [3, 3 + 1, 3 + 2] ∧
    (encode img_2x1 { budget := some 1, data := [] }).1 ≠ Outcome.undefined :=
  ⟨by decide, by unfold rows_ok; decide,
    (reads_in_bounds img_2x1 (by decide) (by unfold rows_ok; decide)).2.2.2.1 3 (Or.inl rfl),
    (reads_in_bounds img_2x1 (by decide) (by unfold rows_ok; decide)).1 _⟩

/-- C15: for all `r`, `g`, `b` in 0..255 the value
`(int)(0.299*r + 0.587*g + 0.114*b)` is at most `max(r,g,b)`, hence at most
255, so the store into `buf[0]` does not wrap and the byte written for the
pixel is the truncated luminance. -/
theorem luminance_range (r g b : Nat) (hr : r ≤ 255) (hg : g ≤ 255) (hb : b ≤ 255) :
    toInt (lum r g b) ≤ max r (max g b) ∧
    toInt (lum r g b) ≤ 255 ∧
    lum_byte r g b = toInt (lum r g b) ∧
    encode (rgb_pixel r g b) empty_sink =
      (Outcome.returned, { budget := none, data := [0, 1, 0, 1, toInt (lum r g b)] }) := by
  have h1 := toInt_lum_le_max hr hg hb
  have hm : max r (max g b) ≤ 255 := max_le hr (max_le hg hb)
  refine ⟨h1, le_trans h1 hm, lum_byte_eq hr hg hb, ?_⟩
  rw [encode_rgb_pixel, lum_byte_eq hr hg hb]

/-- C15 at the pixel (200, 100, 50): the value is 124, below the largest
channel 200. -/
theorem luminance_range_witness :
    toInt (lum 200 100 50) ≤ max 200 (max 100 50) ∧ toInt (lum 200 100 50) = 124 ∧
    lum_byte 200 100 50 = toInt (lum 200 100 50) :=
  ⟨(luminance_range 200 100 50 (by decide) (by decide) (by decide)).1, by decide!,
    (luminance_range 200 100 50 (by decide) (by decide) (by decide)).2.2.1⟩

/-- C16: for all `r ≤ r1`, `g ≤ g1`, `b ≤ b1` in 0..255 the byte written for
the pixel `(r,g,b)` is at most the byte written for `(r1,g1,b1)`. -/
theorem luminance_monotone (r g b r1 g1 b1 : Nat) (hr : r ≤ r1) (hg : g ≤ g1) (hb : b ≤ b1)
    (hr1 : r1 ≤ 255) (hg1 : g1 ≤ 255) (hb1 : b1 ≤ 255) :
    lum_byte r g b ≤ lum_byte r1 g1 b1 ∧
    ∃ x y, encode (rgb_pixel r g b) empty_sink =
        (Outcome.returned, { budget := none, data := [0, 1, 0, 1, x] }) ∧
      encode (rgb_pixel r1 g1 b1) empty_sink =
        (Outcome.returned, { budget := none, data := [0, 1, 0, 1, y] }) ∧ x ≤ y :=
  ⟨lum_byte_mono hr hg hb hr1 hg1 hb1,
    lum_byte r g b, lum_byte r1 g1 b1, encode_rgb_pixel r g b, encode_rgb_pixel r1 g1 b1,
    lum_byte_mono hr hg hb hr1 hg1 hb1⟩

/-- C16 at the pixels (10, 20, 30) and (10, 21, 30). -/
theorem luminance_monotone_witness : lum_byte 10 20 30 ≤ lum_byte 10 21 30 :=
  (luminance_monotone 10 20 30 10 21 30 (by decide) (by decide) (by decide)
    (by decide) (by decide) (by decide)).1

end Png2gs8
